import Mathlib

/-!
Verification development for the `local-skills` CLI: a shallow embedding of
its specifier parser, content-fingerprint computation, manifest/state stores
and the add/update/remove orchestration, together with theorems about the
behaviour documented in the specification.

Strings are modelled as `List Char` (`Str`), mirroring the JavaScript string
operations (`indexOf`, `slice`, `split`, …) used by the TypeScript source.
-/

deriving instance DecidableEq for Except

namespace LocalSkills

/-- Strings are modelled as lists of characters. -/
abbrev Str := List Char

/-- Coerce a Lean string literal into the `Str` model. -/
def str (s : String) : Str := s.data

/-- JS `String.prototype.indexOf` for a single character: index of the first
occurrence, or `none` (JS returns `-1`). -/
def idxOf : Str → Char → Option Nat
  | [], _ => none
  | a :: rest, c => if a = c then some 0 else (idxOf rest c).map (· + 1)

/-- JS `String.prototype.indexOf(c, start)`: first occurrence at index ≥ `start`. -/
def idxFrom (l : Str) (c : Char) (start : Nat) : Option Nat :=
  (idxOf (l.drop start) c).map (· + start)

/-- JS `String.prototype.indexOf` for a substring pattern. -/
def subIdx : Str → Str → Option Nat
  | [], pat => if pat.isPrefixOf ([] : Str) then some 0 else none
  | a :: rest, pat =>
    if pat.isPrefixOf (a :: rest) then some 0 else (subIdx rest pat).map (· + 1)

/-- JS `String.prototype.includes`. -/
def includes (l pat : Str) : Bool := (subIdx l pat).isSome

/-- JS `String.prototype.startsWith` for a single character. -/
def startsWithChar (c : Char) : Str → Bool
  | [] => false
  | a :: _ => a = c

/-- Error codes of the `LocalSkillsError` taxonomy (`lib/errors.ts`; the
current generation additionally carries `SKILL_MODIFIED` and `REMOTE_SOURCE`,
used by `commands/update.ts` and `commands/ls.ts`). -/
inductive ErrorCode where
  | INVALID_SPECIFIER
  | CLONE_FAILED
  | MARKETPLACE_NOT_FOUND
  | MARKETPLACE_PARSE_ERROR
  | PLUGIN_NOT_FOUND
  | SKILL_NOT_FOUND
  | SKILL_ALREADY_EXISTS
  | SKILL_NOT_INSTALLED
  | SKILL_MODIFIED
  | FS_ERROR
  | EXEC_ERROR
  | REMOTE_SOURCE
  deriving DecidableEq, Repr

/-- `LocalSkillsError` (`lib/errors.ts`): a tagged error code plus a
human-readable message (the `cause` field carries no behaviour and is
omitted). -/
structure LocalSkillsError where
  code : ErrorCode
  message : Str
  deriving DecidableEq, Repr

/-- `localSkillsError` constructor (`lib/errors.ts`). -/
def localSkillsError (code : ErrorCode) (message : Str) : LocalSkillsError :=
  ⟨code, message⟩

/-- A marketplace locator: GitHub shorthand or URL/path (`lib/types.ts`). -/
inductive MarketplaceRef where
  | github (owner repo : Str)
  | url (u : Str)
  deriving DecidableEq, Repr

/-- Parsed CLI specifier `plugin@marketplace[:version]:skill` (`lib/types.ts`). -/
structure ParsedSpecifier where
  plugin : Str
  marketplace : MarketplaceRef
  skill : Option Str
  ref : Option Str
  deriving DecidableEq, Repr

/-- Result of `splitMarketplaceAndColons`. -/
structure SplitCols where
  marketplace : Str
  colonSegments : List Str
  deriving DecidableEq, Repr

/-- `splitMarketplaceAndColons` (`lib/specifier.ts`, current generation):
split the part after `@` into the marketplace locator and the
colon-separated trailing segments, never splitting inside a `://`. -/
def splitMarketplaceAndColons (input : Str) : SplitCols :=
  let protocolIndex := subIdx input (str "://")
  let searchFrom := match protocolIndex with
    | some i => i + 3
    | none => 0
  match idxFrom input ':' searchFrom with
  | none => ⟨input, []⟩
  | some j =>
    let marketplace := input.take j
    let rest := input.drop (j + 1)
    if rest = [] then ⟨marketplace, []⟩
    else ⟨marketplace, rest.splitOn ':'⟩

/-- `classifyMarketplace` (`lib/specifier.ts`, current generation): URLs
contain `://` or start with `/`; otherwise a GitHub `owner/repo` shorthand
(the repo part may itself contain `/`). -/
def classifyMarketplace (marketplace : Str) :
    Except LocalSkillsError MarketplaceRef :=
  if includes marketplace (str "://") || startsWithChar '/' marketplace then
    .ok (.url marketplace)
  else
    match marketplace.splitOn '/' with
    | [] =>
      .error (localSkillsError .INVALID_SPECIFIER
        (str "Invalid GitHub shorthand: expected owner/repo"))
    | [_] =>
      .error (localSkillsError .INVALID_SPECIFIER
        (str "Invalid GitHub shorthand: expected owner/repo"))
    | owner :: rest => .ok (.github owner (List.intercalate [ '/' ] rest))

/-- `/^v\d/` of `looksLikeRef`: a `v` followed by a decimal digit. -/
def vDigitShape : Str → Bool
  | a :: d :: _ => a = 'v' && d.isDigit
  | _ => false

/-- `[0-9a-f]`: a lowercase hexadecimal digit. -/
def isLowerHexDigit (c : Char) : Bool :=
  c.isDigit || (decide ('a' ≤ c) && decide (c ≤ 'f'))

/-- `/^[0-9a-f]{7,40}$/` of `looksLikeRef`: 7 to 40 lowercase hex chars. -/
def hexShaShape (s : Str) : Bool :=
  decide (7 ≤ s.length) && decide (s.length ≤ 40) && s.all isLowerHexDigit

/-- `looksLikeRef` (`lib/specifier.ts`, current generation): heuristic for
whether a segment is a git ref (version tag or SHA). -/
def looksLikeRef (segment : Str) : Bool :=
  vDigitShape segment || hexShaShape segment

/-- `parseRight` (`lib/specifier.ts`, current generation): parse the part
after the first `@` into marketplace, optional ref and optional skill. -/
def parseRight (plugin right : Str) :
    Except LocalSkillsError ParsedSpecifier :=
  if right = [] then
    .error (localSkillsError .INVALID_SPECIFIER
      (str "Invalid specifier: empty marketplace after the at sign"))
  else
    let sc := splitMarketplaceAndColons right
    match classifyMarketplace sc.marketplace with
    | .error e => .error e
    | .ok mref =>
      match sc.colonSegments with
      | [] => .ok ⟨plugin, mref, none, none⟩
      | [segment] =>
        if segment = [] then .ok ⟨plugin, mref, none, none⟩
        else if looksLikeRef segment then .ok ⟨plugin, mref, none, some segment⟩
        else .ok ⟨plugin, mref, some segment, none⟩
      | [first, second] =>
        .ok ⟨plugin, mref,
          (if second = [] then none else some second),
          (if first = [] then none else some first)⟩
      | _ =>
        .error (localSkillsError .INVALID_SPECIFIER
          (str "Too many colon segments in specifier"))

/-- `parseSpecifier` (`lib/specifier.ts`, current generation): split at the
first `@` (which must exist and not be at position 0) and parse the rest. -/
def parseSpecifier (input : Str) :
    Except LocalSkillsError ParsedSpecifier :=
  match idxOf input '@' with
  | none =>
    .error (localSkillsError .INVALID_SPECIFIER
      (str "Invalid specifier: must contain an at sign with a plugin name before it"))
  | some atIndex =>
    if atIndex = 0 then
      .error (localSkillsError .INVALID_SPECIFIER
        (str "Invalid specifier: must contain an at sign with a plugin name before it"))
    else
      parseRight (input.take atIndex) (input.drop (atIndex + 1))

/-- `sourceLabel` (`commands/add.ts`): redisplayable `plugin@locator` label. -/
def sourceLabel (spec : ParsedSpecifier) : Str :=
  match spec.marketplace with
  | .github owner repo => spec.plugin ++ '@' :: (owner ++ '/' :: repo)
  | .url u => spec.plugin ++ '@' :: u

/-- `marketplaceUrl` (`commands/add.ts`): clone URL for a marketplace. -/
def marketplaceUrl (spec : ParsedSpecifier) : Str :=
  match spec.marketplace with
  | .github owner repo =>
    str "https://github.com/" ++ owner ++ '/' :: repo ++ str ".git"
  | .url u => u

/-! ## SHA-256 (`node:crypto` `createHash('sha256')`)

The fingerprint in `lib/content-hash.ts` feeds UTF-8 text into SHA-256 and
hex-encodes the digest.  Machine words are modelled as `Nat` with explicit
`% 2^32` reductions. -/

/-- `2^32`, the word modulus. -/
def w32 : Nat := 4294967296

/-- Rotate a 32-bit word (a `Nat` below `2^32`) right by `n`. -/
def rotr32 (n x : Nat) : Nat := (x / 2 ^ n + x % 2 ^ n * 2 ^ (32 - n)) % w32

/-- Bitwise complement within 32 bits (for `x < 2^32`). -/
def bnot32 (x : Nat) : Nat := 4294967295 - x

/-- SHA-256 `Ch` function. -/
def shaCh (x y z : Nat) : Nat := (x &&& y) ^^^ (bnot32 x &&& z)

/-- SHA-256 `Maj` function. -/
def shaMaj (x y z : Nat) : Nat := (x &&& y) ^^^ (x &&& z) ^^^ (y &&& z)

/-- SHA-256 big sigma 0. -/
def bsig0 (x : Nat) : Nat := rotr32 2 x ^^^ rotr32 13 x ^^^ rotr32 22 x

/-- SHA-256 big sigma 1. -/
def bsig1 (x : Nat) : Nat := rotr32 6 x ^^^ rotr32 11 x ^^^ rotr32 25 x

/-- SHA-256 small sigma 0. -/
def ssig0 (x : Nat) : Nat := rotr32 7 x ^^^ rotr32 18 x ^^^ x / 2 ^ 3

/-- SHA-256 small sigma 1. -/
def ssig1 (x : Nat) : Nat := rotr32 17 x ^^^ rotr32 19 x ^^^ x / 2 ^ 10

/-- `k` bytes of `n`, big-endian. -/
def beBytes : Nat → Nat → List Nat
  | 0, _ => []
  | k + 1, n => beBytes k (n / 256) ++ [n % 256]

/-- SHA-256 message padding: `0x80`, zeros, then the bit length in 8 bytes. -/
def sha256Pad (msg : List Nat) : List Nat :=
  let len := msg.length
  let zeros := (64 - (len + 9) % 64) % 64
  msg ++ 128 :: List.replicate zeros 0 ++ beBytes 8 (len * 8)

/-- Group bytes into 32-bit big-endian words. -/
def toWords : List Nat → List Nat
  | a :: b :: c :: d :: rest => (((a * 256 + b) * 256 + c) * 256 + d) :: toWords rest
  | _ => []

/-- Extend 16 message words to the 64-entry SHA-256 schedule. -/
def schedule (ws : List Nat) : List Nat :=
  (List.range 48).foldl
    (fun acc _ =>
      let n := acc.length
      let w := (ssig1 (acc.getD (n - 2) 0) + acc.getD (n - 7) 0 +
        ssig0 (acc.getD (n - 15) 0) + acc.getD (n - 16) 0) % w32
      acc ++ [w])
    ws

/-- The eight 32-bit working variables of SHA-256. -/
structure Hs where
  a : Nat
  b : Nat
  c : Nat
  d : Nat
  e : Nat
  f : Nat
  g : Nat
  h : Nat
  deriving DecidableEq, Repr

/-- One SHA-256 round. -/
def shaRound (s : Hs) (kw : Nat × Nat) : Hs :=
  let t1 := (s.h + bsig1 s.e + shaCh s.e s.f s.g + kw.1 + kw.2) % w32
  let t2 := (bsig0 s.a + shaMaj s.a s.b s.c) % w32
  ⟨(t1 + t2) % w32, s.a, s.b, s.c, (s.d + t1) % w32, s.e, s.f, s.g⟩

/-- The 64 SHA-256 round constants (FIPS 180-4, in decimal). -/
def kConst : List Nat :=
  [1116352408, 1899447441, 3049323471, 3921009573, 961987163,
   1508970993, 2453635748, 2870763221, 3624381080, 310598401,
   607225278, 1426881987, 1925078388, 2162078206, 2614888103,
   3248222580, 3835390401, 4022224774, 264347078, 604807628,
   770255983, 1249150122, 1555081692, 1996064986, 2554220882,
   2821834349, 2952996808, 3210313671, 3336571891, 3584528711,
   113926993, 338241895, 666307205, 773529912, 1294757372,
   1396182291, 1695183700, 1986661051, 2177026350, 2456956037,
   2730485921, 2820302411, 3259730800, 3345764771, 3516065817,
   3600352804, 4094571909, 275423344, 430227734, 506948616,
   659060556, 883997877, 958139571, 1322822218, 1537002063,
   1747873779, 1955562222, 2024104815, 2227730452, 2361852424,
   2428436474, 2756734187, 3204031479, 3329325298]

/-- The SHA-256 initial hash value (FIPS 180-4, in decimal). -/
def sha256Init : Hs :=
  ⟨1779033703, 3144134277, 1013904242, 2773480762,
   1359893119, 2600822924, 528734635, 1541459225⟩

/-- Compress one 64-byte block into the running hash state. -/
def compressBlock (s : Hs) (block : List Nat) : Hs :=
  let ws := schedule (toWords block)
  let t := (kConst.zip ws).foldl shaRound s
  ⟨(s.a + t.a) % w32, (s.b + t.b) % w32, (s.c + t.c) % w32, (s.d + t.d) % w32,
   (s.e + t.e) % w32, (s.f + t.f) % w32, (s.g + t.g) % w32, (s.h + t.h) % w32⟩

/-- Split a byte list into 64-byte chunks (structural recursion on fuel,
so that the kernel can evaluate digests). -/
def chunks64Fuel : Nat → List Nat → List (List Nat)
  | 0, _ => []
  | _, [] => []
  | fuel + 1, x :: rest =>
    (x :: rest).take 64 :: chunks64Fuel fuel ((x :: rest).drop 64)

/-- Split a byte list into 64-byte chunks. -/
def chunks64 (l : List Nat) : List (List Nat) := chunks64Fuel l.length l

/-- SHA-256 of a byte list, as the final eight words. -/
def sha256Words (msg : List Nat) : Hs :=
  (chunks64 (sha256Pad msg)).foldl compressBlock sha256Init

/-- One lowercase hex digit. -/
def hexDigit (n : Nat) : Char :=
  if n < 10 then Char.ofNat (48 + n) else Char.ofNat (87 + n)

/-- Eight lowercase hex digits of a 32-bit word, most significant first. -/
def hexWord (n : Nat) : Str :=
  ((beBytes 4 n).map (fun b => [hexDigit (b / 16), hexDigit (b % 16)])).flatten

/-- Hex encoding of a SHA-256 digest. -/
def sha256HexBytes (msg : List Nat) : Str :=
  let t := sha256Words msg
  ([t.a, t.b, t.c, t.d, t.e, t.f, t.g, t.h].map hexWord).flatten

/-- UTF-8 encoding of one character (Node buffers strings as UTF-8). -/
def utf8Bytes (c : Char) : List Nat :=
  let n := c.toNat
  if n < 128 then [n]
  else if n < 2048 then [192 + n / 64, 128 + n % 64]
  else if n < 65536 then [224 + n / 4096, 128 + n / 64 % 64, 128 + n % 64]
  else [240 + n / 262144, 128 + n / 4096 % 64, 128 + n / 64 % 64, 128 + n % 64]

/-- UTF-8 encoding of a string. -/
def strUtf8 (s : Str) : List Nat := (s.map utf8Bytes).flatten

/-- `createHash('sha256').update(text).digest('hex')` on accumulated text. -/
def sha256Hex (s : Str) : Str := sha256HexBytes (strUtf8 s)

/-! ## Content fingerprint (`lib/content-hash.ts`), pure core

`computeContentHash` lists every regular file under a directory, takes each
path relative to the directory, sorts the relative paths, and per path feeds
`relPath + '\0' + content` into one running SHA-256, returning the hex
digest.  The pure core below is parameterised by the enumeration order the
filesystem returned and by the path-to-content mapping. -/

/-- The NUL separator byte placed between path and content. -/
def nulChar : Char := Char.ofNat 0

/-- The bytes one file contributes: `relPath + '\0' + content`. -/
def fileRecord (relPath content : Str) : Str := relPath ++ nulChar :: content

/-- The accumulated hash input over already-sorted relative paths. -/
def hashStreamOf (lookup : Str → Str) (rels : List Str) : Str :=
  (rels.map (fun r => fileRecord r (lookup r))).flatten

/-- JS `Array.prototype.sort()` on strings: lexicographic sorting. -/
def sortStrs (l : List Str) : List Str := l.insertionSort (· ≤ ·)

/-- The full byte stream `computeContentHash` feeds to SHA-256, given the
filesystem's enumeration order and the path-to-content mapping. -/
def contentHashInput (lookup : Str → Str) (enum : List Str) : Str :=
  hashStreamOf lookup (sortStrs enum)

/-- The hex digest `computeContentHash` produces (pure core). -/
def contentHashHex (lookup : Str → Str) (enum : List Str) : Str :=
  sha256Hex (contentHashInput lookup enum)

/-! ## Stores and marketplace data (`lib/types.ts`, `lib/schemas.ts`)

JS objects keyed by skill name are modelled as insertion-ordered association
lists; `objSet` mirrors the spread update `\x7b...skills, [name]: entry\x7d`
(replacing in place when the key exists, appending otherwise), `objRemove`
mirrors `Object.fromEntries(Object.entries(...).filter(...))`. -/

/-- A single entry in `local-skills.json`. -/
structure ManifestSkillEntry where
  source : Str
  ref : Str
  sha : Str
  deriving DecidableEq, Repr

/-- The full manifest `.claude/local-skills.json`. -/
structure Manifest where
  skills : List (Str × ManifestSkillEntry)
  deriving DecidableEq, Repr

/-- A single entry in `local-skills-state.json`. -/
structure StateFileEntry where
  contentHash : Str
  deriving DecidableEq, Repr

/-- The full state file `.claude/local-skills-state.json`. -/
structure StateFile where
  skills : List (Str × StateFileEntry)
  deriving DecidableEq, Repr

/-- Plugin source in `marketplace.json`: relative path string or a
structured remote reference. -/
inductive PluginSource where
  | rel (p : Str)
  | githubRepo (repo : Str)
  | urlSrc (u : Str)
  deriving DecidableEq, Repr

/-- A plugin entry in `marketplace.json`. -/
structure MarketplacePlugin where
  name : Str
  source : PluginSource
  deriving DecidableEq, Repr

/-- Top-level `marketplace.json` (the optional `metadata.pluginRoot` is
flattened into one optional field). -/
structure MarketplaceConfig where
  plugins : List MarketplacePlugin
  pluginRoot : Option Str
  deriving DecidableEq, Repr

/-- First binding of a key in an association list (JS property lookup). -/
def objGet {β : Type} (l : List (Str × β)) (k : Str) : Option β :=
  match l.find? (fun p => p.1 == k) with
  | some p => some p.2
  | none => none

/-- JS spread update: replace an existing key in place, else append. -/
def objSet {β : Type} (l : List (Str × β)) (k : Str) (v : β) : List (Str × β) :=
  if (objGet l k).isSome then
    l.map (fun p => if p.1 == k then (k, v) else p)
  else
    l ++ [(k, v)]

/-- Drop every binding of a key (JS `entries.filter(([key]) => key !== k)`). -/
def objRemove {β : Type} (l : List (Str × β)) (k : Str) : List (Str × β) :=
  l.filter (fun p => p.1 ≠ k)

/-- `addSkillToManifest` (`lib/manifest.ts`): `SKILL_ALREADY_EXISTS` when the
name is present, else the manifest with the entry added. -/
def addSkillToManifest (manifest : Manifest) (skillName : Str)
    (entry : ManifestSkillEntry) : Except LocalSkillsError Manifest :=
  if (objGet manifest.skills skillName).isSome then
    .error (localSkillsError .SKILL_ALREADY_EXISTS
      (str "Skill is already installed"))
  else
    .ok ⟨objSet manifest.skills skillName entry⟩

/-- `removeSkillFromManifest` (`lib/manifest.ts`): `SKILL_NOT_INSTALLED` when
the name is absent, else the manifest without the entry. -/
def removeSkillFromManifest (manifest : Manifest) (skillName : Str) :
    Except LocalSkillsError Manifest :=
  if (objGet manifest.skills skillName).isSome then
    .ok ⟨objRemove manifest.skills skillName⟩
  else
    .error (localSkillsError .SKILL_NOT_INSTALLED
      (str "Skill is not installed"))

/-! ## The world model

The filesystem is a finite map from absolute paths to file nodes;
directories are implicit (a directory exists when some file lies under it).
JSON serialization of the three structured file formats is modelled
abstractly by dedicated `FData` constructors: `writeManifest` stores a
`jManifest` node and `readManifest` pattern-matches on it, so a node holding
anything else plays the role of unparsable or schema-invalid content.
`git clone`/`git rev-parse HEAD` are modelled by an environment of remote
snapshots plus a per-clone-directory record of the resolved commit SHA. -/

/-- Content of one file. -/
inductive FData where
  | text (s : Str)
  | jManifest (m : Manifest)
  | jState (st : StateFile)
  | jMarket (mc : MarketplaceConfig)
  deriving DecidableEq, Repr

/-- The text fed to the fingerprint when a file is read.  Only `text` nodes
are ever hashed in the modelled flows (skill directories hold plain files);
the placeholder renderings keep the function total. -/
def FData.render : FData → Str
  | .text s => s
  | .jManifest _ => str "json-manifest"
  | .jState _ => str "json-state"
  | .jMarket _ => str "json-marketplace"

/-- A file node: readable content, or a file whose read fails with a
permission error. -/
inductive FileNode where
  | readable (d : FData)
  | denied
  deriving DecidableEq, Repr

/-- The mutable world: files plus resolved clone SHAs. -/
structure Fs where
  files : List (Str × FileNode)
  shas : List (Str × Str)
  deriving DecidableEq, Repr

/-- The computation model of `neverthrow`'s `ResultAsync` over injected
deps: explicit state passing of the world, with short-circuiting errors. -/
def M (α : Type) : Type := Fs → Except LocalSkillsError α × Fs

/-- Successful result. -/
def M.ok {α : Type} (a : α) : M α := fun fs => (.ok a, fs)

/-- Failed result (`errAsync`). -/
def M.fail {α : Type} (e : LocalSkillsError) : M α := fun fs => (.error e, fs)

/-- `andThen` chaining. -/
def M.bind {α β : Type} (m : M α) (f : α → M β) : M β := fun fs =>
  match m fs with
  | (.ok a, fs') => f a fs'
  | (.error e, fs') => (.error e, fs')

/-- `orElse` recovery. -/
def M.orElseFn {α : Type} (m : M α) (handler : LocalSkillsError → M α) :
    M α := fun fs =>
  match m fs with
  | (.ok a, fs') => (.ok a, fs')
  | (.error e, fs') => handler e fs'

/-- `mapErr`. -/
def M.mapErr {α : Type} (m : M α) (f : LocalSkillsError → LocalSkillsError) :
    M α := fun fs =>
  match m fs with
  | (.ok a, fs') => (.ok a, fs')
  | (.error e, fs') => (.error (f e), fs')

/-- `path.join` of two segments.  The flows below never produce `.` or `..`
segments whose normalization would matter. -/
def pjoin (a b : Str) : Str := a ++ '/' :: b

/-- Is `p` strictly inside directory `dir`? -/
def underDir (dir p : Str) : Bool := (dir ++ [ '/' ]).isPrefixOf p

/-- Is `p` the path itself or inside it (the scope of `rm -r`)? -/
def atOrUnder (dir p : Str) : Bool := p == dir || underDir dir p

/-- `deps.readFile`: `FS_ERROR` for a missing or unreadable file. -/
def dReadFile (p : Str) : M FData := fun fs =>
  match objGet fs.files p with
  | some (.readable d) => (.ok d, fs)
  | some .denied => (.error (localSkillsError .FS_ERROR (str "Failed to read: EACCES")), fs)
  | none => (.error (localSkillsError .FS_ERROR (str "Failed to read: ENOENT")), fs)

/-- `deps.writeFile`. -/
def dWriteFile (p : Str) (d : FData) : M Unit := fun fs =>
  (.ok (), { fs with files := objSet fs.files p (.readable d) })

/-- `deps.mkdir` (recursive): directories are implicit in the model. -/
def dMkdir (_p : Str) : M Unit := M.ok ()

/-- `deps.rm` (`rm -rf`): drop the path and everything under it; succeeds
when nothing is there. -/
def dRm (p : Str) : M Unit := fun fs =>
  (.ok (), { fs with files := fs.files.filter (fun q => !atOrUnder p q.1) })

/-- `deps.cp` (recursive directory copy): every file under `src` is rebased
under `dest`; copying a missing directory fails. -/
def dCp (src dest : Str) : M Unit := fun fs =>
  let inSrc := fs.files.filter (fun q => underDir src q.1)
  if inSrc = [] then
    (.error (localSkillsError .FS_ERROR (str "Failed to copy")), fs)
  else
    (.ok (),
      { fs with files := (inSrc.foldl
          (fun acc q => objSet acc (dest ++ q.1.drop src.length) q.2)
          fs.files) })

/-- `deps.exists` (`fs.access`). -/
def dExists (p : Str) : M Bool := fun fs =>
  (.ok (fs.files.any (fun q => atOrUnder p q.1)), fs)

/-- First path component. -/
def firstComp (p : Str) : Str := p.takeWhile (fun c => c ≠ '/')

/-- `deps.readdir`: names of the immediate children of a directory. -/
def dReaddir (dir : Str) : M (List Str) := fun fs =>
  let inDir := fs.files.filter (fun q => underDir dir q.1)
  if inDir = [] then
    (.error (localSkillsError .FS_ERROR (str "Failed to read directory: ENOENT")), fs)
  else
    (.ok ((inDir.map (fun q => firstComp (q.1.drop (dir.length + 1)))).dedup, fs).1,
      fs)

/-- `deps.tmpdir` (`os.tmpdir()`). -/
def dTmp : Except LocalSkillsError Str := .ok (str "/tmp")

/-- One remote snapshot: resolved head SHA and working tree. -/
structure RemoteSnap where
  sha : Str
  tree : List (Str × FData)
  deriving DecidableEq, Repr

/-- What `git clone` can see: snapshots keyed by URL and requested branch,
plus the clock value `Date.now()` reads. -/
structure GitEnv where
  remotes : List ((Str × Option Str) × RemoteSnap)
  now : Nat

/-- Look up a clonable snapshot. -/
def envLookup (env : GitEnv) (url : Str) (ref : Option Str) :
    Option RemoteSnap :=
  match env.remotes.find? (fun r => r.1 == (url, ref)) with
  | some r => some r.2
  | none => none

/-- Decimal digits of a `Nat` (for `Date.now()`-qualified scratch names). -/
def natStr (n : Nat) : Str := (Nat.repr n).data

/-- `cloneRepo` (`lib/git.ts`): `git clone --depth 1 [--branch ref] url
target`; failures surface as `CLONE_FAILED`. -/
def cloneRepo (env : GitEnv) (url target : Str) (ref : Option Str) : M Unit :=
  fun fs =>
    match envLookup env url ref with
    | none => (.error (localSkillsError .CLONE_FAILED (str "Failed to clone")), fs)
    | some snap =>
      (.ok (),
        { files := snap.tree.foldl
            (fun acc q => objSet acc (pjoin target q.1) (.readable q.2)) fs.files,
          shas := objSet fs.shas target snap.sha })

/-- `getHeadSha` (`lib/git.ts`): `git rev-parse HEAD` in a clone directory. -/
def getHeadSha (dir : Str) : M Str := fun fs =>
  match objGet fs.shas dir with
  | some sha => (.ok sha, fs)
  | none => (.error (localSkillsError .EXEC_ERROR (str "git rev-parse failed")), fs)

/-- `isShaRef` (`lib/git.ts`): `/^[a-f0-9]{40}$/`. -/
def isShaRef (ref : Str) : Bool :=
  decide (ref.length = 40) && ref.all isLowerHexDigit

/-- `computeContentHash` (`lib/content-hash.ts`) over the world: `find
dirPath -type f`, relativize and sort the paths, then hash
`relPath + '\0' + content` per file.  `find` on a missing directory is an
exec failure. -/
def computeContentHash (dirPath : Str) : M Str := fun fs =>
  let inDir := fs.files.filter (fun q => underDir dirPath q.1)
  if inDir = [] then
    (.error (localSkillsError .EXEC_ERROR (str "find failed")), fs)
  else
    let rels := sortStrs (inDir.map (fun q => q.1.drop (dirPath.length + 1)))
    let stream := rels.foldl
      (fun acc rel =>
        acc.bind fun s =>
          match objGet fs.files (pjoin dirPath rel) with
          | some (.readable d) => .ok (s ++ fileRecord rel d.render)
          | _ => .error (localSkillsError .FS_ERROR (str "Failed to read")))
      (Except.ok ([] : Str))
    match stream with
    | .ok s => (.ok (sha256Hex s), fs)
    | .error e => (.error e, fs)

/-- `readManifest` (`lib/manifest.ts`): missing or unreadable file gives the
empty manifest; readable content of the wrong shape is a parse error. -/
def readManifest (filePath : Str) : M Manifest :=
  M.orElseFn
    (M.bind (dReadFile filePath) fun d =>
      match d with
      | .jManifest m => M.ok m
      | _ => M.fail (localSkillsError .MARKETPLACE_PARSE_ERROR
          (str "Invalid manifest")))
    (fun e => if e.code = .FS_ERROR then M.ok ⟨[]⟩ else M.fail e)

/-- `writeManifest` (`lib/manifest.ts`). -/
def writeManifest (filePath : Str) (m : Manifest) : M Unit :=
  dWriteFile filePath (.jManifest m)

/-- `readState` (`lib/state.ts`): same permissive shape as `readManifest`. -/
def readState (filePath : Str) : M StateFile :=
  M.orElseFn
    (M.bind (dReadFile filePath) fun d =>
      match d with
      | .jState st => M.ok st
      | _ => M.fail (localSkillsError .MARKETPLACE_PARSE_ERROR
          (str "Invalid state file")))
    (fun e => if e.code = .FS_ERROR then M.ok ⟨[]⟩ else M.fail e)

/-- `writeState` (`lib/state.ts`). -/
def writeState (filePath : Str) (st : StateFile) : M Unit :=
  dWriteFile filePath (.jState st)

/-- `readMarketplace` (`lib/marketplace.ts`): read failures are
`MARKETPLACE_NOT_FOUND`; wrong shape is `MARKETPLACE_PARSE_ERROR`. -/
def readMarketplace (cloneDir : Str) : M MarketplaceConfig :=
  let filePath := pjoin cloneDir (str ".claude-plugin/marketplace.json")
  M.bind
    (M.mapErr (dReadFile filePath)
      (fun _ => localSkillsError .MARKETPLACE_NOT_FOUND
        (str "Marketplace file not found")))
    fun d =>
      match d with
      | .jMarket mc => M.ok mc
      | _ => M.fail (localSkillsError .MARKETPLACE_PARSE_ERROR
          (str "Invalid marketplace.json"))

/-- `findPlugin` (`lib/marketplace.ts`). -/
def findPlugin (config : MarketplaceConfig) (pluginName : Str) :
    Except LocalSkillsError MarketplacePlugin :=
  match config.plugins.find? (fun p => p.name == pluginName) with
  | some plugin => .ok plugin
  | none => .error (localSkillsError .PLUGIN_NOT_FOUND
      (str "Plugin not found in marketplace"))

/-- `resolvePluginDir` (`lib/marketplace.ts`): local absolute path for
string sources, clone URL for remote sources.  The TS `Result` wrapper is
always `Ok` (callers unwrap unconditionally), so the model returns the
string directly; a falsy (empty) `pluginRoot` is ignored as in TS. -/
def resolvePluginDir (plugin : MarketplacePlugin) (cloneDir : Str)
    (pluginRoot : Option Str) : Str :=
  match plugin.source with
  | .rel source =>
    match pluginRoot with
    | some root => if root = [] then pjoin cloneDir source
        else pjoin cloneDir (pjoin root source)
    | none => pjoin cloneDir source
  | .githubRepo repo => str "https://github.com/" ++ repo ++ str ".git"
  | .urlSrc u => u

/-- `listSkills` (`lib/marketplace.ts`): entries of the `skills` folder;
its absence is `SKILL_NOT_FOUND`. -/
def listSkills (pluginDir : Str) : M (List Str) :=
  M.mapErr (dReaddir (pjoin pluginDir (str "skills")))
    (fun _ => localSkillsError .SKILL_NOT_FOUND
      (str "No skills directory found"))

/-! ## Commands: update (`commands/update.ts`), add (`commands/add.ts`),
remove (`commands/remove.ts`), withTempClone (`lib/temp-clone.ts`) -/

/-- Result of an update operation. -/
inductive UpdateResult where
  | updated (oldSha newSha : Str)
  | alreadyUpToDate (sha : Str)
  | skippedPinned (sha : Str)
  deriving DecidableEq, Repr

/-- The local-modification check of `update` (`commands/update.ts`, the
`modCheckResult` value): skipped under `--force`; permissive when the state
entry is missing; `SKILL_MODIFIED` when the live fingerprint differs. -/
def modCheckUpdate (force : Bool) (statePath claudeDir skillName : Str) :
    M Unit :=
  if force then M.ok ()
  else
    M.bind (readState statePath) fun state =>
      match objGet state.skills skillName with
      | none => M.ok ()
      | some stateEntry =>
        let skillDestDir := pjoin claudeDir (pjoin (str "skills") skillName)
        M.bind (computeContentHash skillDestDir) fun currentHash =>
          if currentHash ≠ stateEntry.contentHash then
            M.fail (localSkillsError .SKILL_MODIFIED
              (str "Skill has been locally modified. Use --force to overwrite."))
          else M.ok ()

/-- `update` (`commands/update.ts`). -/
def update (env : GitEnv) (projectDir skillName : Str) (force : Bool) :
    M UpdateResult :=
  let claudeDir := pjoin projectDir (str ".claude")
  let manifestPath := pjoin claudeDir (str "local-skills.json")
  let statePath := pjoin claudeDir (str "local-skills-state.json")
  M.bind (readManifest manifestPath) fun manifest =>
    match objGet manifest.skills skillName with
    | none => M.fail (localSkillsError .SKILL_NOT_INSTALLED
        (str "Skill is not installed"))
    | some entry =>
      if isShaRef entry.ref then M.ok (.skippedPinned entry.sha)
      else
        match idxOf entry.source '@' with
        | none => M.fail (localSkillsError .MARKETPLACE_PARSE_ERROR
            (str "Invalid source in manifest"))
        | some atIdx =>
          let pluginName := entry.source.take atIdx
          let marketplacePart := entry.source.drop (atIdx + 1)
          let cloneUrl :=
            if includes marketplacePart (str "://") then marketplacePart
            else str "https://github.com/" ++ marketplacePart ++ str ".git"
          match dTmp with
          | .error e => M.fail e
          | .ok tmpBase =>
            let cloneDir :=
              pjoin tmpBase (str "local-skills-update-" ++ natStr env.now)
            let ref := if entry.ref = str "HEAD" then none else some entry.ref
            M.bind (modCheckUpdate force statePath claudeDir skillName) fun _ =>
            M.bind (cloneRepo env cloneUrl cloneDir ref) fun _ =>
            M.bind (getHeadSha cloneDir) fun newSha =>
            if newSha = entry.sha then
              M.bind (dRm cloneDir) fun _ => M.ok (.alreadyUpToDate newSha)
            else
              M.bind (readMarketplace cloneDir) fun marketplace =>
              match findPlugin marketplace pluginName with
              | .error e => M.fail e
              | .ok plugin =>
                let pluginDir :=
                  resolvePluginDir plugin cloneDir marketplace.pluginRoot
                let skillSrcDir := pjoin pluginDir (pjoin (str "skills") skillName)
                let skillDestDir := pjoin claudeDir (pjoin (str "skills") skillName)
                let oldSha := entry.sha
                M.bind (dRm skillDestDir) fun _ =>
                M.bind (dCp skillSrcDir skillDestDir) fun _ =>
                M.bind (computeContentHash skillDestDir) fun contentHash =>
                M.bind (readState statePath) fun state =>
                M.bind (writeState statePath
                  ⟨objSet state.skills skillName ⟨contentHash⟩⟩) fun _ =>
                M.bind (writeManifest manifestPath
                  ⟨objSet manifest.skills skillName
                    ⟨entry.source, entry.ref, newSha⟩⟩) fun _ =>
                M.bind (dRm cloneDir) fun _ =>
                M.ok (.updated oldSha newSha)

/-- `installSingleSkill` (`commands/add.ts`). -/
def installSingleSkill (spec : ParsedSpecifier)
    (pluginDir sha claudeDir manifestPath skillName : Str) : M Unit :=
  let skillSrcDir := pjoin pluginDir (pjoin (str "skills") skillName)
  let skillDestDir := pjoin claudeDir (pjoin (str "skills") skillName)
  M.bind (dExists skillSrcDir) fun ex =>
  M.bind (if ex then M.ok () else
    M.fail (localSkillsError .SKILL_NOT_FOUND
      (str "Skill not found in plugin"))) fun _ =>
  M.bind (readManifest manifestPath) fun manifest =>
  match addSkillToManifest manifest skillName
      ⟨sourceLabel spec, spec.ref.getD (str "HEAD"), sha⟩ with
  | .error e => M.fail e
  | .ok updatedManifest =>
    M.bind (dMkdir (pjoin claudeDir (str "skills"))) fun _ =>
    M.bind (dCp skillSrcDir skillDestDir) fun _ =>
    writeManifest manifestPath updatedManifest

/-- `installAllSkills` (`commands/add.ts`): sequential, first failure stops
the chain. -/
def installAllSkills (spec : ParsedSpecifier)
    (pluginDir sha claudeDir manifestPath : Str) : M Unit :=
  M.bind (listSkills pluginDir) fun skills =>
    skills.foldl
      (fun chain skillName =>
        M.bind chain fun _ =>
          installSingleSkill spec pluginDir sha claudeDir manifestPath skillName)
      (M.ok ())

/-- `installSkills` (`commands/add.ts`): wildcard installs everything.  A
specifier with no skill reaches `path.join` with `undefined` in TS, a thrown
`TypeError`; modelled as a failure (no modelled flow takes this branch). -/
def installSkills (spec : ParsedSpecifier)
    (pluginDir sha claudeDir manifestPath : Str) : M Unit :=
  match spec.skill with
  | some sk =>
    if sk = str "*" then
      installAllSkills spec pluginDir sha claudeDir manifestPath
    else
      installSingleSkill spec pluginDir sha claudeDir manifestPath sk
  | none => M.fail (localSkillsError .EXEC_ERROR (str "TypeError"))

/-- `add` (`commands/add.ts`): clone the marketplace, resolve the plugin,
clone its remote source if needed, install, then remove the marketplace
scratch clone (only on the success path; the plugin scratch clone is never
removed). -/
def add (env : GitEnv) (projectDir : Str) (spec : ParsedSpecifier) : M Unit :=
  let claudeDir := pjoin projectDir (str ".claude")
  let manifestPath := pjoin claudeDir (str "local-skills.json")
  let url := marketplaceUrl spec
  match dTmp with
  | .error e => M.fail e
  | .ok tmpBase =>
    let cloneDir := pjoin tmpBase (str "local-skills-clone-" ++ natStr env.now)
    M.bind
      (M.bind (cloneRepo env url cloneDir spec.ref) fun _ =>
       M.bind (getHeadSha cloneDir) fun sha =>
       M.bind (readMarketplace cloneDir) fun marketplace =>
       match findPlugin marketplace spec.plugin with
       | .error e => M.fail e
       | .ok plugin =>
         let pluginDir := resolvePluginDir plugin cloneDir marketplace.pluginRoot
         let isRemote := match plugin.source with
           | .rel _ => false
           | _ => true
         if isRemote then
           let pluginCloneDir :=
             pjoin tmpBase (str "local-skills-plugin-" ++ natStr env.now)
           M.bind (cloneRepo env pluginDir pluginCloneDir none) fun _ =>
             installSkills spec pluginCloneDir sha claudeDir manifestPath
         else
           installSkills spec pluginDir sha claudeDir manifestPath)
      (fun _ => dRm cloneDir)

/-- `remove` (`commands/remove.ts`): drop the manifest entry and the skill
directory; the state store is left untouched. -/
def remove (projectDir skillName : Str) : M Unit :=
  let claudeDir := pjoin projectDir (str ".claude")
  let manifestPath := pjoin claudeDir (str "local-skills.json")
  let skillDir := pjoin claudeDir (pjoin (str "skills") skillName)
  M.bind (readManifest manifestPath) fun manifest =>
    match removeSkillFromManifest manifest skillName with
    | .error e => M.fail e
    | .ok updatedManifest =>
      M.bind (dRm skillDir) fun _ => writeManifest manifestPath updatedManifest

/-- `withTempClone` (`lib/temp-clone.ts`): clone into a scratch directory,
run the operation, and remove the scratch directory on both the success and
the error path. -/
def withTempClone {α : Type} (env : GitEnv) (url : Str) (ref : Option Str)
    (operation : Str → M α) : M α :=
  match dTmp with
  | .error e => M.fail e
  | .ok tmpBase =>
    let cloneDir := pjoin tmpBase (str "local-skills-clone-" ++ natStr env.now)
    M.orElseFn
      (M.bind (cloneRepo env url cloneDir ref) fun _ =>
       M.bind (operation cloneDir) fun result =>
       M.bind (dRm cloneDir) fun _ => M.ok result)
      (fun e =>
        M.orElseFn (M.bind (dRm cloneDir) fun _ => M.fail e)
          (fun _ => M.fail e))

/-! # Theorems

## Claim C3: classification of a single trailing colon segment -/

/-- The spec's ref-like shape, stated independently of the implementation:
the segment starts with `v` followed by a decimal digit, or consists of 7 to
40 lowercase hexadecimal characters. -/
def RefShape (seg : Str) : Prop :=
  (∃ d rest, seg = 'v' :: d :: rest ∧ d.isDigit = true) ∨
  (7 ≤ seg.length ∧ seg.length ≤ 40 ∧
    ∀ c ∈ seg, c.isDigit = true ∨ ('a' ≤ c ∧ c ≤ 'f'))

lemma looksLikeRef_iff (seg : Str) : looksLikeRef seg = true ↔ RefShape seg := by
  unfold looksLikeRef RefShape
  rw [Bool.or_eq_true]
  apply or_congr
  · cases seg with
    | nil => simp [vDigitShape]
    | cons a t =>
      cases t with
      | nil => simp [vDigitShape]
      | cons b t2 =>
        simp only [vDigitShape, Bool.and_eq_true, decide_eq_true_iff]
        constructor
        · rintro ⟨rfl, hd⟩
          exact ⟨b, t2, rfl, hd⟩
        · rintro ⟨d, rest, heq, hd⟩
          injection heq with h1 h2
          injection h2 with h3 _
          subst h1; subst h3
          exact ⟨rfl, hd⟩
  · simp only [hexShaShape, isLowerHexDigit, Bool.and_eq_true,
      decide_eq_true_iff, List.all_eq_true, Bool.or_eq_true, and_assoc]

/-- C3 (confirmed).  For a specifier right-hand side that splits into a
valid marketplace locator and exactly one non-empty colon segment, the
parser classifies the segment as the ref (skill absent) precisely when it is
ref-shaped (`v` + digit, or 7–40 lowercase hex), and as the skill (ref
absent) precisely otherwise. -/
theorem c3_single_segment_classification
    (plugin right mkt seg : Str) (mv : MarketplaceRef)
    (hsplit : splitMarketplaceAndColons right = ⟨mkt, [seg]⟩)
    (hseg : seg ≠ [])
    (hcls : classifyMarketplace mkt = .ok mv) :
    (parseRight plugin right = .ok ⟨plugin, mv, none, some seg⟩ ↔ RefShape seg) ∧
    (parseRight plugin right = .ok ⟨plugin, mv, some seg, none⟩ ↔ ¬ RefShape seg) := by
  have hr : right ≠ [] := by
    intro h
    rw [h] at hsplit
    have hempty : splitMarketplaceAndColons [] = ⟨[], []⟩ := rfl
    rw [hempty] at hsplit
    cases hsplit
  unfold parseRight
  rw [if_neg hr]
  simp only [hsplit, hcls]
  rw [if_neg hseg]
  by_cases hlr : looksLikeRef seg = true
  · rw [if_pos hlr]
    have hshape := (looksLikeRef_iff seg).mp hlr
    constructor
    · exact ⟨fun _ => hshape, fun _ => rfl⟩
    · constructor
      · intro h
        simp only [Except.ok.injEq, ParsedSpecifier.mk.injEq] at h
        exact absurd h.2.2.1.symm (Option.some_ne_none seg)
      · intro h; exact absurd hshape h
  · rw [if_neg hlr]
    have hshape : ¬ RefShape seg := fun h => hlr ((looksLikeRef_iff seg).mpr h)
    constructor
    · constructor
      · intro h
        simp only [Except.ok.injEq, ParsedSpecifier.mk.injEq] at h
        exact absurd h.2.2.1 (Option.some_ne_none seg)
      · intro h; exact absurd h hshape
    · exact ⟨fun _ => hshape, fun _ => rfl⟩

/-- Witness for C3: `v2.0` classifies as ref, `tdd` as skill. -/
theorem c3_witness :
    parseRight (str "p") (str "o/r:v2.0") =
      .ok ⟨str "p", .github (str "o") (str "r"), none, some (str "v2.0")⟩ ∧
    parseRight (str "p") (str "o/r:tdd") =
      .ok ⟨str "p", .github (str "o") (str "r"), some (str "tdd"), none⟩ := by
  constructor
  · exact (c3_single_segment_classification (str "p") (str "o/r:v2.0")
      (str "o/r") (str "v2.0") (.github (str "o") (str "r"))
      (by decide) (by decide) (by decide)).1.mpr
      (Or.inl ⟨'2', str ".0", by decide, by decide⟩)
  · refine (c3_single_segment_classification (str "p") (str "o/r:tdd")
      (str "o/r") (str "tdd") (.github (str "o") (str "r"))
      (by decide) (by decide) (by decide)).2.mpr ?_
    rintro (⟨d, rest, heq, _⟩ | ⟨h7, _⟩)
    · injection heq with h1 _
      exact absurd h1 (by decide)
    · exact absurd h7 (by decide)

/-! ## Claim C7: sensitivity of the fingerprint byte stream

The stream concatenates `relPath ++ NUL ++ content` per file with no record
separator, so distinct file sets can produce identical streams: the file set
`a ↦ "x", yb ↦ "z"` and the file set `a ↦ "xy", b ↦ "z"` both stream to
`a NUL x y b NUL z`.  Over a fixed path list with NUL-free paths and
contents, the stream does determine every content. -/

/-- Contents of the first colliding file set (`a ↦ x`, `yb ↦ z`). -/
def lookA : Str → Str := fun r => if r = str "a" then str "x" else str "z"

/-- Contents of the second colliding file set (`a ↦ xy`, `b ↦ z`). -/
def lookB : Str → Str := fun r => if r = str "a" then str "xy" else str "z"

/-- C7 counterexample: two distinct file sets — different path sets,
NUL-free contents — whose hash input streams, and hence digests, coincide. -/
theorem c7_counterexample :
    contentHashInput lookA [str "a", str "yb"] =
      contentHashInput lookB [str "a", str "b"] ∧
    contentHashHex lookA [str "a", str "yb"] =
      contentHashHex lookB [str "a", str "b"] ∧
    [(str "a", lookA (str "a")), (str "yb", lookA (str "yb"))] ≠
      [(str "a", lookB (str "a")), (str "b", lookB (str "b"))] := by
  refine ⟨by decide, ?_, by decide⟩
  show sha256Hex (contentHashInput lookA [str "a", str "yb"]) =
    sha256Hex (contentHashInput lookB [str "a", str "b"])
  exact congrArg sha256Hex (by decide)

lemma nul_split : ∀ (a b x y : Str), nulChar ∉ a → nulChar ∉ b →
    a ++ nulChar :: x = b ++ nulChar :: y → a = b ∧ x = y
  | [], [], _, _, _, _, h => by simpa using h
  | [], d :: bs, x, y, _, hb, h => by
    exfalso
    simp only [List.nil_append, List.cons_append, List.cons.injEq] at h
    apply hb
    rw [h.1]
    exact List.mem_cons_self d bs
  | c :: as, [], x, y, ha, _, h => by
    exfalso
    simp only [List.cons_append, List.nil_append, List.cons.injEq] at h
    apply ha
    rw [← h.1]
    exact List.mem_cons_self c as
  | c :: as, d :: bs, x, y, ha, hb, h => by
    simp only [List.cons_append, List.cons.injEq] at h
    obtain ⟨rfl, h2⟩ := h
    have ha' : nulChar ∉ as := fun hm => ha (List.mem_cons_of_mem _ hm)
    have hb' : nulChar ∉ bs := fun hm => hb (List.mem_cons_of_mem _ hm)
    obtain ⟨he, hxy⟩ := nul_split as bs x y ha' hb' h2
    exact ⟨by rw [he], hxy⟩

lemma hashStream_inj : ∀ (paths : List Str) (f g : Str → Str),
    (∀ p ∈ paths, nulChar ∉ p) → (∀ p ∈ paths, nulChar ∉ f p) →
    (∀ p ∈ paths, nulChar ∉ g p) →
    hashStreamOf f paths = hashStreamOf g paths →
    ∀ p ∈ paths, f p = g p
  | [], _, _, _, _, _, _ => by simp
  | p :: ps, f, g, hp, hf, hg, h => by
    have hrec : p ++ nulChar :: (f p ++ hashStreamOf f ps) =
        p ++ nulChar :: (g p ++ hashStreamOf g ps) := by
      simpa [hashStreamOf, fileRecord, List.append_assoc] using h
    have h2 : f p ++ hashStreamOf f ps = g p ++ hashStreamOf g ps := by
      have := List.append_cancel_left hrec
      injection this
    cases ps with
    | nil =>
      intro q hq
      rw [List.mem_singleton] at hq
      subst hq
      simpa [hashStreamOf] using h2
    | cons r rs =>
      have h3 : (f p ++ r) ++ nulChar :: (f r ++ hashStreamOf f rs) =
          (g p ++ r) ++ nulChar :: (g r ++ hashStreamOf g rs) := by
        simpa [hashStreamOf, fileRecord, List.append_assoc] using h2
      have hpmem : p ∈ p :: r :: rs := List.mem_cons_self p _
      have hrmem : r ∈ p :: r :: rs := List.mem_cons_of_mem _ (List.mem_cons_self r rs)
      have hfree₁ : nulChar ∉ f p ++ r := by
        rw [List.mem_append]
        rintro (hm | hm)
        · exact hf p hpmem hm
        · exact hp r hrmem hm
      have hfree₂ : nulChar ∉ g p ++ r := by
        rw [List.mem_append]
        rintro (hm | hm)
        · exact hg p hpmem hm
        · exact hp r hrmem hm
      obtain ⟨hpq, htail⟩ := nul_split (f p ++ r) (g p ++ r) _ _ hfree₁ hfree₂ h3
      have hfp : f p = g p := List.append_cancel_right hpq
      have hexpand : ∀ k : Str → Str, hashStreamOf k (r :: rs) =
          r ++ nulChar :: (k r ++ hashStreamOf k rs) := by
        intro k
        simp [hashStreamOf, fileRecord, List.append_assoc]
      have htails : hashStreamOf f (r :: rs) = hashStreamOf g (r :: rs) := by
        rw [hexpand f, hexpand g, htail]
      have hsub : ∀ q ∈ r :: rs, q ∈ p :: r :: rs :=
        fun q hq => List.mem_cons_of_mem _ hq
      have ih := hashStream_inj (r :: rs) f g
        (fun q hq => hp q (hsub q hq)) (fun q hq => hf q (hsub q hq))
        (fun q hq => hg q (hsub q hq)) htails
      intro q hq
      rcases List.mem_cons.mp hq with hq' | hq'
      · rw [hq']; exact hfp
      · exact ih q hq'

/-- C7 (corrected).  Over a fixed set of enumerated relative paths, with
NUL-free paths and NUL-free contents, the byte stream fed to the hash
determines the content of every file: two content assignments with equal
streams agree on every path, so any single content change changes the
stream, and digests collide only via a hash collision.  (Across different
path sets the stream is not injective: see the counterexample.) -/
theorem c7_amended_stream_inj (enum : List Str) (f g : Str → Str)
    (hp : ∀ p ∈ enum, nulChar ∉ p) (hf : ∀ p ∈ enum, nulChar ∉ f p)
    (hg : ∀ p ∈ enum, nulChar ∉ g p)
    (h : contentHashInput f enum = contentHashInput g enum) :
    ∀ p ∈ enum, f p = g p := by
  have hperm : (sortStrs enum).Perm enum := List.perm_insertionSort _ enum
  intro p hpmem
  exact hashStream_inj (sortStrs enum) f g
    (fun q hq => hp q (hperm.mem_iff.mp hq))
    (fun q hq => hf q (hperm.mem_iff.mp hq))
    (fun q hq => hg q (hperm.mem_iff.mp hq))
    h p (hperm.mem_iff.mpr hpmem)

/-- Witness for the amended C7 at a concrete file set. -/
theorem c7_amended_witness :
    contentHashInput (fun _ => str "x") [str "a"] =
      contentHashInput (fun _ => str "x") [str "a"] ∧
    (fun _ => str "x") (str "a") = (fun _ => str "x") (str "a") :=
  ⟨rfl, c7_amended_stream_inj [str "a"] (fun _ => str "x") (fun _ => str "x")
    (by decide) (by decide) (by decide) rfl (str "a") (by decide)⟩

/-! ## Claim C8: order independence and repeatability of the fingerprint -/

lemma sortStrs_eq_of_perm {e₁ e₂ : List Str} (h : e₁.Perm e₂) :
    sortStrs e₁ = sortStrs e₂ := by
  refine List.eq_of_perm_of_sorted ?_
    (List.sorted_insertionSort (· ≤ ·) e₁) (List.sorted_insertionSort (· ≤ ·) e₂)
  exact (List.perm_insertionSort _ e₁).trans
    (h.trans (List.perm_insertionSort _ e₂).symm)

lemma computeContentHash_snd (dirPath : Str) (fs : Fs) :
    (computeContentHash dirPath fs).2 = fs := by
  unfold computeContentHash
  dsimp only
  split
  · rfl
  · split <;> rfl

/-- C8 (confirmed).  The fingerprint is a function of the set of
(relative path, content) pairs only: permuting the filesystem's enumeration
order changes neither the hash input stream nor the digest, and running the
fingerprint again on the unchanged world yields the identical result. -/
theorem c8_order_independence :
    (∀ (lookup : Str → Str) (e₁ e₂ : List Str), e₁.Perm e₂ →
      contentHashInput lookup e₁ = contentHashInput lookup e₂ ∧
      contentHashHex lookup e₁ = contentHashHex lookup e₂) ∧
    (∀ (dirPath : Str) (fs : Fs),
      computeContentHash dirPath ((computeContentHash dirPath fs).2) =
        computeContentHash dirPath fs) := by
  constructor
  · intro lookup e₁ e₂ h
    have hs : sortStrs e₁ = sortStrs e₂ := sortStrs_eq_of_perm h
    constructor
    · show hashStreamOf lookup (sortStrs e₁) = hashStreamOf lookup (sortStrs e₂)
      rw [hs]
    · show sha256Hex (hashStreamOf lookup (sortStrs e₁)) =
        sha256Hex (hashStreamOf lookup (sortStrs e₂))
      rw [hs]
  · intro dirPath fs
    rw [computeContentHash_snd]

/-- Witness for C8 at a concrete permuted enumeration. -/
theorem c8_witness :
    ([str "b", str "a"].Perm [str "a", str "b"]) ∧
    contentHashHex (fun p => p) [str "b", str "a"] =
      contentHashHex (fun p => p) [str "a", str "b"] :=
  ⟨by decide, (c8_order_independence.1 (fun p => p) [str "b", str "a"]
    [str "a", str "b"] (by decide)).2⟩

/-! ## Claim C10: permissive reads of the manifest and state files -/

/-- C10 (confirmed).  Any filesystem read failure — a missing file or a
denied read — makes `readManifest`/`readState` return the empty collection
without touching the world; an error is produced exactly when the file was
readable but its content is not of the expected shape, and that error is the
parse-error kind. -/
theorem c10_read_permissive :
    (∀ (path : Str) (fs : Fs),
      (objGet fs.files path = none ∨ objGet fs.files path = some .denied) →
      readManifest path fs = (.ok ⟨[]⟩, fs) ∧
      readState path fs = (.ok ⟨[]⟩, fs)) ∧
    (∀ (path : Str) (fs : Fs) (e : LocalSkillsError) (fs' : Fs),
      readManifest path fs = (.error e, fs') →
      ∃ d, objGet fs.files path = some (.readable d) ∧
        (∀ m : Manifest, d ≠ .jManifest m) ∧
        e.code = .MARKETPLACE_PARSE_ERROR) ∧
    (∀ (path : Str) (fs : Fs) (e : LocalSkillsError) (fs' : Fs),
      readState path fs = (.error e, fs') →
      ∃ d, objGet fs.files path = some (.readable d) ∧
        (∀ st : StateFile, d ≠ .jState st) ∧
        e.code = .MARKETPLACE_PARSE_ERROR) := by
  refine ⟨?_, ?_, ?_⟩
  · intro path fs h
    rcases h with h | h <;>
      simp [readManifest, readState, M.orElseFn, M.bind, M.ok, M.fail,
        dReadFile, h, localSkillsError]
  · intro path fs e fs' herr
    match hx : objGet fs.files path with
    | none =>
      rw [show readManifest path fs = (.ok ⟨[]⟩, fs) by
        simp [readManifest, M.orElseFn, M.bind, M.ok, M.fail, dReadFile, hx,
          localSkillsError]] at herr
      cases herr
    | some .denied =>
      rw [show readManifest path fs = (.ok ⟨[]⟩, fs) by
        simp [readManifest, M.orElseFn, M.bind, M.ok, M.fail, dReadFile, hx,
          localSkillsError]] at herr
      cases herr
    | some (.readable d) =>
      refine ⟨d, rfl, ?_⟩
      match d with
      | .jManifest m =>
        rw [show readManifest path fs = (.ok m, fs) by
          simp [readManifest, M.orElseFn, M.bind, M.ok, dReadFile, hx]] at herr
        cases herr
      | .text s =>
        rw [show readManifest path fs =
            (.error (localSkillsError .MARKETPLACE_PARSE_ERROR
              (str "Invalid manifest")), fs) by
          simp [readManifest, M.orElseFn, M.bind, M.ok, M.fail, dReadFile, hx,
            localSkillsError]] at herr
        injection herr with h1 _
        injection h1 with h2
        exact ⟨(fun m hm => by cases hm), (by rw [← h2]; rfl)⟩
      | .jState st =>
        rw [show readManifest path fs =
            (.error (localSkillsError .MARKETPLACE_PARSE_ERROR
              (str "Invalid manifest")), fs) by
          simp [readManifest, M.orElseFn, M.bind, M.ok, M.fail, dReadFile, hx,
            localSkillsError]] at herr
        injection herr with h1 _
        injection h1 with h2
        exact ⟨(fun m hm => by cases hm), (by rw [← h2]; rfl)⟩
      | .jMarket mc =>
        rw [show readManifest path fs =
            (.error (localSkillsError .MARKETPLACE_PARSE_ERROR
              (str "Invalid manifest")), fs) by
          simp [readManifest, M.orElseFn, M.bind, M.ok, M.fail, dReadFile, hx,
            localSkillsError]] at herr
        injection herr with h1 _
        injection h1 with h2
        exact ⟨(fun m hm => by cases hm), (by rw [← h2]; rfl)⟩
  · intro path fs e fs' herr
    match hx : objGet fs.files path with
    | none =>
      rw [show readState path fs = (.ok ⟨[]⟩, fs) by
        simp [readState, M.orElseFn, M.bind, M.ok, M.fail, dReadFile, hx,
          localSkillsError]] at herr
      cases herr
    | some .denied =>
      rw [show readState path fs = (.ok ⟨[]⟩, fs) by
        simp [readState, M.orElseFn, M.bind, M.ok, M.fail, dReadFile, hx,
          localSkillsError]] at herr
      cases herr
    | some (.readable d) =>
      refine ⟨d, rfl, ?_⟩
      match d with
      | .jState st =>
        rw [show readState path fs = (.ok st, fs) by
          simp [readState, M.orElseFn, M.bind, M.ok, dReadFile, hx]] at herr
        cases herr
      | .text s =>
        rw [show readState path fs =
            (.error (localSkillsError .MARKETPLACE_PARSE_ERROR
              (str "Invalid state file")), fs) by
          simp [readState, M.orElseFn, M.bind, M.ok, M.fail, dReadFile, hx,
            localSkillsError]] at herr
        injection herr with h1 _
        injection h1 with h2
        exact ⟨(fun st hst => by cases hst), (by rw [← h2]; rfl)⟩
      | .jManifest m =>
        rw [show readState path fs =
            (.error (localSkillsError .MARKETPLACE_PARSE_ERROR
              (str "Invalid state file")), fs) by
          simp [readState, M.orElseFn, M.bind, M.ok, M.fail, dReadFile, hx,
            localSkillsError]] at herr
        injection herr with h1 _
        injection h1 with h2
        exact ⟨(fun st hst => by cases hst), (by rw [← h2]; rfl)⟩
      | .jMarket mc =>
        rw [show readState path fs =
            (.error (localSkillsError .MARKETPLACE_PARSE_ERROR
              (str "Invalid state file")), fs) by
          simp [readState, M.orElseFn, M.bind, M.ok, M.fail, dReadFile, hx,
            localSkillsError]] at herr
        injection herr with h1 _
        injection h1 with h2
        exact ⟨(fun st hst => by cases hst), (by rw [← h2]; rfl)⟩

/-- Witness for C10: a permission-denied state file reads as empty. -/
theorem c10_witness :
    readState (str "/s.json") ⟨[(str "/s.json", .denied)], []⟩ =
      (.ok ⟨[]⟩, ⟨[(str "/s.json", .denied)], []⟩) :=
  (c10_read_permissive.1 (str "/s.json") ⟨[(str "/s.json", .denied)], []⟩
    (Or.inr (by decide))).2

/-! ## Claim C2: pinned SHA refs short-circuit update -/

/-- The manifest file path the commands use for a project directory. -/
def manifestPathOf (projectDir : Str) : Str :=
  pjoin (pjoin projectDir (str ".claude")) (str "local-skills.json")

/-- The state file path the commands use for a project directory. -/
def statePathOf (projectDir : Str) : Str :=
  pjoin (pjoin projectDir (str ".claude")) (str "local-skills-state.json")

lemma isShaRef_iff (ref : Str) : isShaRef ref = true ↔
    (ref.length = 40 ∧ ∀ c ∈ ref, c.isDigit = true ∨ ('a' ≤ c ∧ c ≤ 'f')) := by
  simp [isShaRef, isLowerHexDigit, List.all_eq_true, Bool.and_eq_true,
    decide_eq_true_iff, Bool.or_eq_true]

lemma M.bind_ok {α β : Type} {m : M α} {f : α → M β} {fs fs' : Fs} {a : α}
    (h : m fs = (.ok a, fs')) : M.bind m f fs = f a fs' := by
  unfold M.bind
  rw [h]

lemma M.bind_err {α β : Type} {m : M α} {f : α → M β} {fs fs' : Fs}
    {e : LocalSkillsError} (h : m fs = (.error e, fs')) :
    M.bind m f fs = (.error e, fs') := by
  unfold M.bind
  rw [h]

lemma readManifest_ok {path : Str} {fs : Fs} {m : Manifest}
    (h : objGet fs.files path = some (.readable (.jManifest m))) :
    readManifest path fs = (.ok m, fs) := by
  simp [readManifest, M.orElseFn, M.bind, M.ok, dReadFile, h]

lemma readState_ok {path : Str} {fs : Fs} {st : StateFile}
    (h : objGet fs.files path = some (.readable (.jState st))) :
    readState path fs = (.ok st, fs) := by
  simp [readState, M.orElseFn, M.bind, M.ok, dReadFile, h]

/-- C2 (confirmed).  When the recorded ref of an installed skill is a
40-character lowercase hexadecimal string, `update` immediately returns the
skipped-pinned result carrying the recorded SHA, and the whole world —
files (manifest, state, skill directories) and clone records — is returned
unchanged: no clone, no filesystem mutation. -/
theorem c2_pinned_skip (env : GitEnv) (projectDir skillName : Str)
    (force : Bool) (fs : Fs) (manifest : Manifest)
    (entry : ManifestSkillEntry)
    (hm : objGet fs.files (manifestPathOf projectDir) =
      some (.readable (.jManifest manifest)))
    (he : objGet manifest.skills skillName = some entry)
    (hsha : entry.ref.length = 40 ∧
      ∀ c ∈ entry.ref, c.isDigit = true ∨ ('a' ≤ c ∧ c ≤ 'f')) :
    update env projectDir skillName force fs =
      (.ok (.skippedPinned entry.sha), fs) := by
  have hsr : isShaRef entry.ref = true := (isShaRef_iff entry.ref).mpr hsha
  simp only [manifestPathOf] at hm
  unfold update
  rw [M.bind_ok (readManifest_ok hm)]
  simp only [he, hsr, if_true]
  rfl

/-- Witness for C2 at a concrete pinned manifest. -/
theorem c2_witness :
    update ⟨[], 0⟩ (str "/proj") (str "tdd") false
      ⟨[(manifestPathOf (str "/proj"),
        .readable (.jManifest ⟨[(str "tdd",
          ⟨str "superpowers@o/r",
           str "aaaaaaaaaaaaaaaaaaaaaaaaaaaaaaaaaaaaaaaa",
           str "aaaaaaaaaaaaaaaaaaaaaaaaaaaaaaaaaaaaaaaa"⟩)]⟩))], []⟩ =
      (.ok (.skippedPinned (str "aaaaaaaaaaaaaaaaaaaaaaaaaaaaaaaaaaaaaaaa")),
       ⟨[(manifestPathOf (str "/proj"),
        .readable (.jManifest ⟨[(str "tdd",
          ⟨str "superpowers@o/r",
           str "aaaaaaaaaaaaaaaaaaaaaaaaaaaaaaaaaaaaaaaa",
           str "aaaaaaaaaaaaaaaaaaaaaaaaaaaaaaaaaaaaaaaa"⟩)]⟩))], []⟩) :=
  c2_pinned_skip ⟨[], 0⟩ (str "/proj") (str "tdd") false
    ⟨[(manifestPathOf (str "/proj"),
      .readable (.jManifest ⟨[(str "tdd",
        ⟨str "superpowers@o/r",
         str "aaaaaaaaaaaaaaaaaaaaaaaaaaaaaaaaaaaaaaaa",
         str "aaaaaaaaaaaaaaaaaaaaaaaaaaaaaaaaaaaaaaaa"⟩)]⟩))], []⟩
    ⟨[(str "tdd",
      ⟨str "superpowers@o/r",
       str "aaaaaaaaaaaaaaaaaaaaaaaaaaaaaaaaaaaaaaaa",
       str "aaaaaaaaaaaaaaaaaaaaaaaaaaaaaaaaaaaaaaaa"⟩)]⟩
    ⟨str "superpowers@o/r",
     str "aaaaaaaaaaaaaaaaaaaaaaaaaaaaaaaaaaaaaaaa",
     str "aaaaaaaaaaaaaaaaaaaaaaaaaaaaaaaaaaaaaaaa"⟩
    (by decide) (by decide) (by decide)

/-! ## Claim C1: the local-modification gate of update

`update` parses the recorded source label (`entry.source.indexOf('@')`)
*before* running the modification check, so a manifest entry whose source
lacks an `@` fails with `MARKETPLACE_PARSE_ERROR` even when a recorded
fingerprint differs from the live one — a counterexample to the claim as
stated.  With a well-formed source the claim holds. -/

lemma readState_missing {path : Str} {fs : Fs}
    (h : objGet fs.files path = none ∨ objGet fs.files path = some .denied) :
    readState path fs = (.ok ⟨[]⟩, fs) := by
  rcases h with h | h <;>
    simp [readState, M.orElseFn, M.bind, M.ok, M.fail, dReadFile, h,
      localSkillsError]

lemma modCheck_modified {statePath claudeDir skillName : Str} {fs : Fs}
    {st : StateFile} {se : StateFileEntry} {live : Str}
    (hs : objGet fs.files statePath = some (.readable (.jState st)))
    (hentry : objGet st.skills skillName = some se)
    (hhash : (computeContentHash
      (pjoin claudeDir (pjoin (str "skills") skillName)) fs).1 = .ok live)
    (hdiff : live ≠ se.contentHash) :
    modCheckUpdate false statePath claudeDir skillName fs =
      (.error (localSkillsError .SKILL_MODIFIED
        (str "Skill has been locally modified. Use --force to overwrite.")),
       fs) := by
  unfold modCheckUpdate
  rw [if_neg (by simp)]
  rw [M.bind_ok (readState_ok hs)]
  simp only [hentry]
  have hrun : computeContentHash
      (pjoin claudeDir (pjoin (str "skills") skillName)) fs = (.ok live, fs) :=
    Prod.ext hhash (computeContentHash_snd
      (pjoin claudeDir (pjoin (str "skills") skillName)) fs)
  rw [M.bind_ok hrun]
  rw [if_pos hdiff]
  rfl

lemma modCheck_permissive {statePath claudeDir skillName : Str} {fs : Fs}
    (h : objGet fs.files statePath = none ∨
      objGet fs.files statePath = some .denied ∨
      ∃ st, objGet fs.files statePath = some (.readable (.jState st)) ∧
        objGet st.skills skillName = none) :
    modCheckUpdate false statePath claudeDir skillName fs = (.ok (), fs) := by
  unfold modCheckUpdate
  rw [if_neg (by simp)]
  rcases h with h | h | ⟨st, hst, hnone⟩
  · rw [M.bind_ok (readState_missing (Or.inl h))]
    simp [objGet, M.ok]
  · rw [M.bind_ok (readState_missing (Or.inr h))]
    simp [objGet, M.ok]
  · rw [M.bind_ok (readState_ok hst)]
    simp only [hnone]
    rfl

/-- A computation never fails with the `SKILL_MODIFIED` kind. -/
def NoSM {α : Type} (m : M α) : Prop :=
  ∀ fs e fs', m fs = (.error e, fs') → e.code ≠ .SKILL_MODIFIED

lemma noSM_ok {α : Type} (a : α) : NoSM (M.ok a) := by
  intro fs e fs' h
  cases h

lemma noSM_fail {α : Type} {e : LocalSkillsError}
    (h : e.code ≠ .SKILL_MODIFIED) : NoSM (M.fail e : M α) := by
  intro fs e' fs' h'
  injection h' with h1 _
  injection h1 with h2
  rw [← h2]
  exact h

lemma noSM_bind {α β : Type} {m : M α} {f : α → M β}
    (h1 : NoSM m) (h2 : ∀ a, NoSM (f a)) : NoSM (M.bind m f) := by
  intro fs e fs' h
  unfold M.bind at h
  cases hm : m fs with
  | mk r fs1 =>
    rw [hm] at h
    cases r with
    | ok a => exact h2 a fs1 e fs' h
    | error e1 =>
      injection h with hh1 hh2
      injection hh1 with hh3
      rw [← hh3]
      exact h1 fs e1 fs1 hm

lemma noSM_never {α : Type} {m : M α}
    (h : ∀ fs, (m fs).1.isOk = true) : NoSM m := by
  intro fs e fs' hrun
  have := h fs
  rw [hrun] at this
  cases this

lemma noSM_cloneRepo (env : GitEnv) (url target : Str) (ref : Option Str) :
    NoSM (cloneRepo env url target ref) := by
  intro fs e fs' h
  unfold cloneRepo at h
  cases hl : envLookup env url ref with
  | none =>
    rw [hl] at h
    injection h with h1 _
    injection h1 with h2
    rw [← h2]
    intro hc
    cases hc
  | some snap =>
    rw [hl] at h
    cases h

lemma noSM_getHeadSha (dir : Str) : NoSM (getHeadSha dir) := by
  intro fs e fs' h
  unfold getHeadSha at h
  cases hl : objGet fs.shas dir with
  | none =>
    rw [hl] at h
    injection h with h1 _
    injection h1 with h2
    rw [← h2]
    intro hc
    cases hc
  | some sha => rw [hl] at h; cases h

lemma noSM_dRm (p : Str) : NoSM (dRm p) :=
  noSM_never (fun _ => rfl)

lemma noSM_dWrite (p : Str) (d : FData) : NoSM (dWriteFile p d) :=
  noSM_never (fun _ => rfl)

lemma noSM_dCp (src dest : Str) : NoSM (dCp src dest) := by
  intro fs e fs' h
  unfold dCp at h
  dsimp only at h
  by_cases hc : fs.files.filter (fun q => underDir src q.1) = []
  · rw [if_pos hc] at h
    injection h with h1 _
    injection h1 with h2
    rw [← h2]
    intro hcc
    cases hcc
  · rw [if_neg hc] at h
    cases h

lemma stream_fold_code (fs : Fs) (dirPath : Str) :
    ∀ (rels : List Str) (acc : Except LocalSkillsError Str),
    (∀ e, acc = .error e → e.code = .FS_ERROR) →
    ∀ e, rels.foldl
      (fun acc rel =>
        acc.bind fun s =>
          match objGet fs.files (pjoin dirPath rel) with
          | some (.readable d) => .ok (s ++ fileRecord rel d.render)
          | _ => .error (localSkillsError .FS_ERROR (str "Failed to read")))
      acc = .error e → e.code = .FS_ERROR
  | [], acc, hacc, e, h => hacc e h
  | rel :: rels, acc, hacc, e, h => by
    refine stream_fold_code fs dirPath rels _ ?_ e h
    intro e1 h1
    cases acc with
    | error e0 =>
      simp only [List.foldl_cons] at h1
      dsimp only [Except.bind] at h1
      injection h1 with h2
      rw [← h2]
      exact hacc e0 rfl
    | ok s =>
      dsimp only [Except.bind] at h1
      cases hg : objGet fs.files (pjoin dirPath rel) with
      | none =>
        rw [hg] at h1
        injection h1 with h2
        rw [← h2]
        rfl
      | some node =>
        cases node with
        | readable d =>
          rw [hg] at h1
          cases h1
        | denied =>
          rw [hg] at h1
          injection h1 with h2
          rw [← h2]
          rfl

lemma noSM_computeContentHash (dirPath : Str) :
    NoSM (computeContentHash dirPath) := by
  intro fs e fs' h
  unfold computeContentHash at h
  dsimp only at h
  by_cases hc : fs.files.filter (fun q => underDir dirPath q.1) = []
  · rw [if_pos hc] at h
    injection h with h1 _
    injection h1 with h2
    rw [← h2]
    intro hcc
    cases hcc
  · rw [if_neg hc] at h
    split at h
    · injection h with h1 _
      cases h1
    · rename_i e1 heq
      injection h with h1 _
      injection h1 with h2
      rw [← h2]
      rw [stream_fold_code fs dirPath _ _ (fun _ he => by cases he) e1 heq]
      intro hcc
      cases hcc

lemma readManifest_err_code {p : Str} {fs : Fs} {e : LocalSkillsError}
    {fs' : Fs} (h : readManifest p fs = (.error e, fs')) :
    e.code = .MARKETPLACE_PARSE_ERROR := by
  unfold readManifest M.orElseFn M.bind M.ok M.fail dReadFile at h
  dsimp only at h
  cases hg : objGet fs.files p with
  | none => rw [hg] at h; simp [localSkillsError] at h
  | some node =>
    cases node with
    | denied => rw [hg] at h; simp [localSkillsError] at h
    | readable d =>
      rw [hg] at h
      cases d with
      | jManifest m => cases h
      | text s =>
        injection h with h1 _
        injection h1 with h2
        rw [← h2]
        rfl
      | jState st =>
        injection h with h1 _
        injection h1 with h2
        rw [← h2]
        rfl
      | jMarket mc =>
        injection h with h1 _
        injection h1 with h2
        rw [← h2]
        rfl

lemma readState_err_code {p : Str} {fs : Fs} {e : LocalSkillsError}
    {fs' : Fs} (h : readState p fs = (.error e, fs')) :
    e.code = .MARKETPLACE_PARSE_ERROR := by
  unfold readState M.orElseFn M.bind M.ok M.fail dReadFile at h
  dsimp only at h
  cases hg : objGet fs.files p with
  | none => rw [hg] at h; simp [localSkillsError] at h
  | some node =>
    cases node with
    | denied => rw [hg] at h; simp [localSkillsError] at h
    | readable d =>
      rw [hg] at h
      cases d with
      | jState st => cases h
      | text s =>
        injection h with h1 _
        injection h1 with h2
        rw [← h2]
        rfl
      | jManifest m =>
        injection h with h1 _
        injection h1 with h2
        rw [← h2]
        rfl
      | jMarket mc =>
        injection h with h1 _
        injection h1 with h2
        rw [← h2]
        rfl

lemma noSM_readState (p : Str) : NoSM (readState p) := by
  intro fs e fs' h
  rw [readState_err_code h]
  intro hc
  cases hc

lemma noSM_readMarketplace (cloneDir : Str) : NoSM (readMarketplace cloneDir) := by
  intro fs e fs' h
  unfold readMarketplace M.bind M.mapErr M.ok M.fail dReadFile at h
  dsimp only at h
  cases hg : objGet fs.files
      (pjoin cloneDir (str ".claude-plugin/marketplace.json")) with
  | none =>
    rw [hg] at h
    injection h with h1 _
    injection h1 with h2
    rw [← h2]
    intro hc
    cases hc
  | some node =>
    cases node with
    | denied =>
      rw [hg] at h
      injection h with h1 _
      injection h1 with h2
      rw [← h2]
      intro hc
      cases hc
    | readable d =>
      rw [hg] at h
      cases d with
      | jMarket mc => cases h
      | text s =>
        injection h with h1 _
        injection h1 with h2
        rw [← h2]
        intro hc
        cases hc
      | jManifest m =>
        injection h with h1 _
        injection h1 with h2
        rw [← h2]
        intro hc
        cases hc
      | jState st =>
        injection h with h1 _
        injection h1 with h2
        rw [← h2]
        intro hc
        cases hc

lemma findPlugin_err_code {config : MarketplaceConfig} {pluginName : Str}
    {e : LocalSkillsError} (h : findPlugin config pluginName = .error e) :
    e.code = .PLUGIN_NOT_FOUND := by
  unfold findPlugin at h
  cases hf : config.plugins.find? (fun p => p.name == pluginName) with
  | some plugin => rw [hf] at h; cases h
  | none =>
    rw [hf] at h
    injection h with h1
    rw [← h1]
    rfl

/-- The world wC1 on which the claim C1 fails as stated: the recorded
source label `nope` has no `@`, the recorded fingerprint `deadbeef` differs
from the live one, and update fails with the parse-error kind instead of
`SKILL_MODIFIED`. -/
def wC1 : Fs :=
  ⟨[(manifestPathOf (str "/proj"),
     .readable (.jManifest ⟨[(str "tdd",
       ⟨str "nope", str "HEAD",
        str "aaaaaaaaaaaaaaaaaaaaaaaaaaaaaaaaaaaaaaaa"⟩)]⟩)),
    (statePathOf (str "/proj"),
     .readable (.jState ⟨[(str "tdd", ⟨str "deadbeef"⟩)]⟩)),
    (str "/proj/.claude/skills/tdd/SKILL.md", .readable (.text (str "# X")))],
   []⟩

/-- C1 counterexample: an installed, non-pinned skill with a recorded
fingerprint that differs from the live one (the live hash computes
successfully and is not `deadbeef`), yet `update` without force fails with
`MARKETPLACE_PARSE_ERROR` — not `SKILL_MODIFIED` — because the recorded
source `nope` lacks an `@`. -/
theorem c1_counterexample :
    (computeContentHash (pjoin (pjoin (str "/proj") (str ".claude"))
      (pjoin (str "skills") (str "tdd"))) wC1).1 =
      .ok (str "803e98e7bc69d60765e5bf303305e5495d3ec6d1347bfdbb0f3102e47200af69") ∧
    str "803e98e7bc69d60765e5bf303305e5495d3ec6d1347bfdbb0f3102e47200af69" ≠
      str "deadbeef" ∧
    update ⟨[], 0⟩ (str "/proj") (str "tdd") false wC1 =
      (.error (localSkillsError .MARKETPLACE_PARSE_ERROR
        (str "Invalid source in manifest")), wC1) :=
  ⟨by decide, by decide, by decide⟩

/-- C1 (corrected).  For update without force on an installed skill whose
ref is not a full SHA *and whose recorded source label contains an `@`*:
a recorded fingerprint differing from the live one makes update fail with
`SKILL_MODIFIED` and leave the whole world unchanged; when the state store
has no entry for the skill (or no state file), update never fails with
`SKILL_MODIFIED`; and with force set the fingerprint comparison is skipped
entirely (the check succeeds on every world without reading it). -/
theorem c1_modification_gate :
    (∀ (env : GitEnv) (projectDir skillName : Str) (fs : Fs)
      (manifest : Manifest) (entry : ManifestSkillEntry) (atIdx : Nat)
      (st : StateFile) (se : StateFileEntry) (live : Str),
      objGet fs.files (manifestPathOf projectDir) =
        some (.readable (.jManifest manifest)) →
      objGet manifest.skills skillName = some entry →
      isShaRef entry.ref = false →
      idxOf entry.source '@' = some atIdx →
      objGet fs.files (statePathOf projectDir) =
        some (.readable (.jState st)) →
      objGet st.skills skillName = some se →
      (computeContentHash (pjoin (pjoin projectDir (str ".claude"))
        (pjoin (str "skills") skillName)) fs).1 = .ok live →
      live ≠ se.contentHash →
      update env projectDir skillName false fs =
        (.error (localSkillsError .SKILL_MODIFIED
          (str "Skill has been locally modified. Use --force to overwrite.")),
         fs)) ∧
    (∀ (env : GitEnv) (projectDir skillName : Str) (fs : Fs)
      (manifest : Manifest) (entry : ManifestSkillEntry) (atIdx : Nat),
      objGet fs.files (manifestPathOf projectDir) =
        some (.readable (.jManifest manifest)) →
      objGet manifest.skills skillName = some entry →
      isShaRef entry.ref = false →
      idxOf entry.source '@' = some atIdx →
      (objGet fs.files (statePathOf projectDir) = none ∨
       objGet fs.files (statePathOf projectDir) = some .denied ∨
       ∃ st, objGet fs.files (statePathOf projectDir) =
          some (.readable (.jState st)) ∧
        objGet st.skills skillName = none) →
      ∀ e fs', update env projectDir skillName false fs = (.error e, fs') →
        e.code ≠ .SKILL_MODIFIED) ∧
    (∀ (statePath claudeDir skillName : Str) (fs : Fs),
      modCheckUpdate true statePath claudeDir skillName fs = (.ok (), fs)) := by
  refine ⟨?_, ?_, ?_⟩
  · intro env projectDir skillName fs manifest entry atIdx st se live
      hm he hns hat hst hentry hhash hdiff
    simp only [manifestPathOf] at hm
    simp only [statePathOf] at hst
    unfold update
    rw [M.bind_ok (readManifest_ok hm)]
    simp only [he, hat, dTmp]
    rw [if_neg (by simp [hns])]
    rw [M.bind_err (modCheck_modified hst hentry hhash hdiff)]
  · intro env projectDir skillName fs manifest entry atIdx hm he hns hat hno
      e fs' hrun
    simp only [manifestPathOf] at hm
    simp only [statePathOf] at hno
    unfold update at hrun
    rw [M.bind_ok (readManifest_ok hm)] at hrun
    simp only [he, hat, dTmp] at hrun
    rw [if_neg (by simp [hns])] at hrun
    rw [M.bind_ok (modCheck_permissive hno)] at hrun
    revert hrun
    refine noSM_bind (noSM_cloneRepo env _ _ _) (fun _ => ?_) fs e fs'
    refine noSM_bind (noSM_getHeadSha _) (fun newSha => ?_)
    split
    · exact noSM_bind (noSM_dRm _) (fun _ => noSM_ok _)
    · refine noSM_bind (noSM_readMarketplace _) (fun marketplace => ?_)
      split
      · rename_i e1 heq
        refine noSM_fail ?_
        rw [findPlugin_err_code heq]
        intro hc
        cases hc
      · refine noSM_bind (noSM_dRm _) (fun _ => ?_)
        refine noSM_bind (noSM_dCp _ _) (fun _ => ?_)
        refine noSM_bind (noSM_computeContentHash _) (fun _ => ?_)
        refine noSM_bind (noSM_readState _) (fun _ => ?_)
        refine noSM_bind (noSM_dWrite _ _) (fun _ => ?_)
        refine noSM_bind (noSM_dWrite _ _) (fun _ => ?_)
        exact noSM_bind (noSM_dRm _) (fun _ => noSM_ok _)
  · intro statePath claudeDir skillName fs
    rfl

/-- Witness for the amended C1: a concrete locally-modified world on which
update fails with `SKILL_MODIFIED` and mutates nothing. -/
theorem c1_witness :
    update ⟨[], 0⟩ (str "/proj") (str "tdd") false
      ⟨[(manifestPathOf (str "/proj"),
         .readable (.jManifest ⟨[(str "tdd",
           ⟨str "superpowers@o/r", str "HEAD",
            str "aaaaaaaaaaaaaaaaaaaaaaaaaaaaaaaaaaaaaaaa"⟩)]⟩)),
        (statePathOf (str "/proj"),
         .readable (.jState ⟨[(str "tdd", ⟨str "deadbeef"⟩)]⟩)),
        (str "/proj/.claude/skills/tdd/SKILL.md",
         .readable (.text (str "# X")))], []⟩ =
      (.error (localSkillsError .SKILL_MODIFIED
        (str "Skill has been locally modified. Use --force to overwrite.")),
       ⟨[(manifestPathOf (str "/proj"),
         .readable (.jManifest ⟨[(str "tdd",
           ⟨str "superpowers@o/r", str "HEAD",
            str "aaaaaaaaaaaaaaaaaaaaaaaaaaaaaaaaaaaaaaaa"⟩)]⟩)),
        (statePathOf (str "/proj"),
         .readable (.jState ⟨[(str "tdd", ⟨str "deadbeef"⟩)]⟩)),
        (str "/proj/.claude/skills/tdd/SKILL.md",
         .readable (.text (str "# X")))], []⟩) :=
  c1_modification_gate.1 ⟨[], 0⟩ (str "/proj") (str "tdd") _
    ⟨[(str "tdd", ⟨str "superpowers@o/r", str "HEAD",
      str "aaaaaaaaaaaaaaaaaaaaaaaaaaaaaaaaaaaaaaaa"⟩)]⟩
    ⟨str "superpowers@o/r", str "HEAD",
     str "aaaaaaaaaaaaaaaaaaaaaaaaaaaaaaaaaaaaaaaa"⟩
    11 ⟨[(str "tdd", ⟨str "deadbeef"⟩)]⟩ ⟨str "deadbeef"⟩
    (str "803e98e7bc69d60765e5bf303305e5495d3ec6d1347bfdbb0f3102e47200af69")
    (by decide) (by decide) (by decide) (by decide) (by decide) (by decide)
    (by decide) (by decide)

/-! ## Claim C4: add and the state store

A successful `add` copies the skill and writes the manifest, but never
computes a fingerprint and never writes `local-skills-state.json`
(`commands/add.ts` has no `writeState`/`computeContentHash` call), although
the spec and the repository's own test (`add.test.ts`, "writes content hash
to state file after adding a skill") require the entry. -/

/-- Specifier used by the C4 scenario. -/
def specC4 : ParsedSpecifier :=
  ⟨str "superpowers", .github (str "o") (str "r"), some (str "tdd"), none⟩

/-- Remote marketplace of the C4 scenario: one plugin with one skill. -/
def envC4 : GitEnv :=
  ⟨[((str "https://github.com/o/r.git", none),
     ⟨str "aaaaaaaaaaaaaaaaaaaaaaaaaaaaaaaaaaaaaaaa",
      [(str ".claude-plugin/marketplace.json",
        .jMarket ⟨[⟨str "superpowers", .rel (str "p")⟩], none⟩),
       (str "p/skills/tdd/SKILL.md", .text (str "# TDD v1"))]⟩)], 0⟩

/-- C4 (code bug).  On an empty project, the modelled `add` succeeds, copies
the skill file and records the manifest entry — but leaves no state file at
all, so no contentHash is recorded for the freshly installed skill. -/
theorem c4_add_writes_no_state :
    (add envC4 (str "/proj") specC4 ⟨[], []⟩).1 = .ok () ∧
    objGet (add envC4 (str "/proj") specC4 ⟨[], []⟩).2.files
      (str "/proj/.claude/skills/tdd/SKILL.md") =
      some (.readable (.text (str "# TDD v1"))) ∧
    objGet (add envC4 (str "/proj") specC4 ⟨[], []⟩).2.files
      (manifestPathOf (str "/proj")) =
      some (.readable (.jManifest ⟨[(str "tdd",
        ⟨str "superpowers@o/r", str "HEAD",
         str "aaaaaaaaaaaaaaaaaaaaaaaaaaaaaaaaaaaaaaaa"⟩)]⟩)) ∧
    objGet (add envC4 (str "/proj") specC4 ⟨[], []⟩).2.files
      (statePathOf (str "/proj")) = none :=
  ⟨by decide, by decide, by decide, by decide⟩

/-! ## Claim C6: scratch-clone cleanup

`withTempClone` (used by the remote listing commands) removes its scratch
clone on both the success and the error path.  `update` (and `add`) remove
their scratch clone only at the end of the success chain: an error after the
clone — below, a marketplace file missing from the clone — leaves the
scratch directory behind. -/

/-- Installed world for the C6 counterexample. -/
def wC6 : Fs :=
  ⟨[(manifestPathOf (str "/proj"),
     .readable (.jManifest ⟨[(str "tdd",
       ⟨str "superpowers@o/r", str "HEAD",
        str "aaaaaaaaaaaaaaaaaaaaaaaaaaaaaaaaaaaaaaaa"⟩)]⟩)),
    (str "/proj/.claude/skills/tdd/SKILL.md",
     .readable (.text (str "# TDD v1")))], []⟩

/-- Remote for the C6 counterexample: new head SHA but no marketplace.json. -/
def envC6 : GitEnv :=
  ⟨[((str "https://github.com/o/r.git", none),
     ⟨str "bbbbbbbbbbbbbbbbbbbbbbbbbbbbbbbbbbbbbbbb",
      [(str "README.md", .text (str "x"))]⟩)], 2⟩

/-- C6 counterexample: update clones, then fails reading the marketplace,
and returns with the scratch clone directory still populated. -/
theorem c6_counterexample :
    (update envC6 (str "/proj") (str "tdd") false wC6).1 =
      .error (localSkillsError .MARKETPLACE_NOT_FOUND
        (str "Marketplace file not found")) ∧
    (update envC6 (str "/proj") (str "tdd") false wC6).2.files.filter
      (fun q => underDir (str "/tmp/local-skills-update-2") q.1) =
      [(str "/tmp/local-skills-update-2/README.md",
        .readable (.text (str "x")))] :=
  ⟨by decide, by decide⟩

lemma filter_not_filter (p : Str) (l : List (Str × FileNode)) :
    (l.filter (fun q => !atOrUnder p q.1)).filter
      (fun q => atOrUnder p q.1) = [] := by
  induction l with
  | nil => rfl
  | cons a t ih =>
    by_cases h : atOrUnder p a.1 = true
    · simp [List.filter_cons, h, ih]
    · simp [List.filter_cons, h, ih]

lemma dRm_clears (p : Str) (fs : Fs) :
    (dRm p fs).2.files.filter (fun q => atOrUnder p q.1) = [] := by
  unfold dRm
  exact filter_not_filter p fs.files

/-- C6 (amended, the part that holds).  `withTempClone` — the helper behind
the remote listing commands — leaves no file at or under its scratch clone
directory, whatever the operation does and however it exits: success,
operation error, or clone failure. -/
theorem c6_amended_withTempClone_cleanup {α : Type} (env : GitEnv) (url : Str)
    (ref : Option Str) (operation : Str → M α) (fs : Fs) :
    (withTempClone env url ref operation fs).2.files.filter
      (fun q => atOrUnder
        (pjoin (str "/tmp") (str "local-skills-clone-" ++ natStr env.now))
        q.1) = [] := by
  cases h1 : cloneRepo env url
      (pjoin (str "/tmp") (str "local-skills-clone-" ++ natStr env.now)) ref fs with
  | mk r1 fs1 =>
    cases r1 with
    | error e =>
      simp only [withTempClone, dTmp, M.orElseFn, M.bind, M.fail, M.ok, h1]
      exact dRm_clears _ _
    | ok a =>
      cases h2 : operation
          (pjoin (str "/tmp") (str "local-skills-clone-" ++ natStr env.now)) fs1 with
      | mk r2 fs2 =>
        cases r2 with
        | error e =>
          simp only [withTempClone, dTmp, M.orElseFn, M.bind, M.fail, M.ok, h1, h2]
          exact dRm_clears _ _
        | ok b =>
          simp only [withTempClone, dTmp, M.orElseFn, M.bind, M.fail, M.ok, h1, h2]
          exact dRm_clears _ _

/-! ## Claim C5: state-store keys versus manifest keys

`remove` drops the manifest entry but leaves the state entry orphaned, so
the subset invariant fails on add → update → remove.  Restricted to add and
update it holds.  The project directory is fixed to `/proj`. -/

/-- The fixed project directory of the C5 state machine. -/
def projDir : Str := str "/proj"

/-- The manifest file node of the project. -/
def manifestNode (fs : Fs) : Option FileNode :=
  objGet fs.files (manifestPathOf projDir)

/-- The state file node of the project. -/
def stateNode (fs : Fs) : Option FileNode :=
  objGet fs.files (statePathOf projDir)

/-- Skill names recorded in a manifest file node. -/
def manifestKeysOf : Option FileNode → List Str
  | some (.readable (.jManifest m)) => m.skills.map Prod.fst
  | _ => []

/-- Skill names recorded in a state file node. -/
def stateKeysOf : Option FileNode → List Str
  | some (.readable (.jState st)) => st.skills.map Prod.fst
  | _ => []

/-- Skill names present in the project's manifest store. -/
def manifestKeys (fs : Fs) : List Str := manifestKeysOf (manifestNode fs)

/-- Skill names present in the project's state store. -/
def stateKeys (fs : Fs) : List Str := stateKeysOf (stateNode fs)

/-- The claimed invariant: state-store keys form a subset of manifest keys. -/
def StoreInv (fs : Fs) : Prop := ∀ k ∈ stateKeys fs, k ∈ manifestKeys fs

/-- Worlds reachable from the empty stores by add, update and remove. -/
inductive Reachable : Fs → Prop where
  | init : Reachable ⟨[], []⟩
  | addStep (env : GitEnv) (spec : ParsedSpecifier) {fs : Fs} :
      Reachable fs → Reachable (add env projDir spec fs).2
  | updateStep (env : GitEnv) (skillName : Str) (force : Bool) {fs : Fs} :
      Reachable fs → Reachable (update env projDir skillName force fs).2
  | removeStep (skillName : Str) {fs : Fs} :
      Reachable fs → Reachable (remove projDir skillName fs).2

/-- Worlds reachable from the empty stores by add and update only. -/
inductive ReachableAU : Fs → Prop where
  | init : ReachableAU ⟨[], []⟩
  | addStep (env : GitEnv) (spec : ParsedSpecifier) {fs : Fs} :
      ReachableAU fs → ReachableAU (add env projDir spec fs).2
  | updateStep (env : GitEnv) (skillName : Str) (force : Bool) {fs : Fs} :
      ReachableAU fs → ReachableAU (update env projDir skillName force fs).2

/-- Both store nodes agree between two worlds. -/
def NodesEq (fs' fs : Fs) : Prop :=
  manifestNode fs' = manifestNode fs ∧ stateNode fs' = stateNode fs

lemma storeInv_of_nodesEq {fs fs' : Fs} (h : NodesEq fs' fs)
    (hinv : StoreInv fs) : StoreInv fs' := by
  unfold StoreInv stateKeys manifestKeys
  rw [h.1, h.2]
  exact hinv

/-! Association-list stability lemmas. -/

lemma find?_map_replace {β : Type} (k k' : Str) (v : β) (hkk : (k == k') = false) :
    ∀ l : List (Str × β),
    (l.map (fun p => if p.1 == k then (k, v) else p)).find? (fun p => p.1 == k') =
      l.find? (fun p => p.1 == k')
  | [] => rfl
  | a :: t => by
    rw [List.map_cons]
    by_cases ha : (a.1 == k) = true
    · have ha' : a.1 = k := by simpa using ha
      rw [if_pos ha]
      rw [List.find?_cons_of_neg _ (by simp [hkk]),
        List.find?_cons_of_neg _ (by simp [ha', hkk])]
      exact find?_map_replace k k' v hkk t
    · rw [if_neg ha]
      by_cases ha2 : (a.1 == k') = true
      · rw [@List.find?_cons_of_pos _ (fun p => p.1 == k') a
            (List.map (fun p => if (p.1 == k) = true then (k, v) else p) t) ha2,
          @List.find?_cons_of_pos _ (fun p => p.1 == k') a t ha2]
      · rw [@List.find?_cons_of_neg _ (fun p => p.1 == k') a
            (List.map (fun p => if (p.1 == k) = true then (k, v) else p) t) ha2,
          @List.find?_cons_of_neg _ (fun p => p.1 == k') a t ha2]
        exact find?_map_replace k k' v hkk t

lemma objGet_objSet_ne {β : Type} (l : List (Str × β)) (k k' : Str) (v : β)
    (h : k ≠ k') : objGet (objSet l k v) k' = objGet l k' := by
  have hkk : (k == k') = false := by simpa using h
  unfold objSet
  by_cases hs : (objGet l k).isSome = true
  · rw [if_pos hs]
    unfold objGet
    rw [find?_map_replace k k' v hkk l]
  · rw [if_neg hs]
    unfold objGet
    rw [List.find?_append]
    rw [List.find?_cons_of_neg _ (by simp [hkk])]
    simp only [List.find?_nil, Option.or_none]

lemma objGet_objSet_self {β : Type} (l : List (Str × β)) (k : Str) (v : β) :
    objGet (objSet l k v) k = some v := by
  unfold objSet
  by_cases hs : (objGet l k).isSome = true
  · rw [if_pos hs]
    unfold objGet at hs ⊢
    induction l with
    | nil => simp at hs
    | cons a t ih =>
      rw [List.map_cons]
      by_cases ha : (a.1 == k) = true
      · rw [if_pos ha]
        rw [List.find?_cons_of_pos _ (by simp)]
      · rw [if_neg ha]
        rw [@List.find?_cons_of_neg _ (fun p => p.1 == k) a t ha] at hs
        rw [@List.find?_cons_of_neg _ (fun p => p.1 == k) a
          (List.map (fun p => if (p.1 == k) = true then (k, v) else p) t) ha]
        exact ih hs
  · rw [if_neg hs]
    unfold objGet at hs ⊢
    rw [List.find?_append]
    have hnone : l.find? (fun p => p.1 == k) = none := by
      cases hf : l.find? (fun p => p.1 == k) with
      | none => rfl
      | some p => rw [hf] at hs; simp at hs
    rw [hnone]
    simp [List.find?_cons]

lemma objGet_filter_keep (p : Str) (k : Str) (h : atOrUnder p k = false) :
    ∀ l : List (Str × FileNode),
    objGet (l.filter (fun q => !atOrUnder p q.1)) k = objGet l k
  | [] => rfl
  | a :: t => by
    by_cases ha : (a.1 == k) = true
    · have ha' : a.1 = k := by simpa using ha
      have hkeep : (!atOrUnder p a.1) = true := by rw [ha', h]; rfl
      rw [@List.filter_cons_of_pos _ (fun q => !atOrUnder p q.1) a t hkeep]
      unfold objGet
      rw [@List.find?_cons_of_pos _ (fun q => q.1 == k) a
          (t.filter (fun q => !atOrUnder p q.1)) ha,
        @List.find?_cons_of_pos _ (fun q => q.1 == k) a t ha]
    · by_cases hkeep : (!atOrUnder p a.1) = true
      · rw [@List.filter_cons_of_pos _ (fun q => !atOrUnder p q.1) a t hkeep]
        unfold objGet
        rw [@List.find?_cons_of_neg _ (fun q => q.1 == k) a
            (t.filter (fun q => !atOrUnder p q.1)) ha,
          @List.find?_cons_of_neg _ (fun q => q.1 == k) a t ha]
        exact objGet_filter_keep p k h t
      · rw [@List.filter_cons_of_neg _ (fun q => !atOrUnder p q.1) a t hkeep]
        unfold objGet
        rw [@List.find?_cons_of_neg _ (fun q => q.1 == k) a t ha]
        exact objGet_filter_keep p k h t

lemma mem_keys_objSet {β : Type} (l : List (Str × β)) (name k : Str) (v : β)
    (h : k ∈ (objSet l name v).map Prod.fst) :
    k ∈ l.map Prod.fst ∨ k = name := by
  unfold objSet at h
  split at h
  · rw [List.map_map] at h
    obtain ⟨p, hp, hk⟩ := List.mem_map.mp h
    by_cases hpn : (p.1 == name) = true
    · right
      simp only [Function.comp, hpn, if_true] at hk
      exact hk.symm
    · left
      simp only [Function.comp, hpn, if_false] at hk
      exact hk ▸ List.mem_map_of_mem Prod.fst hp
  · rw [List.map_append] at h
    rcases List.mem_append.mp h with h | h
    · exact Or.inl h
    · right
      simpa using h

lemma keys_objSet_superset {β : Type} (l : List (Str × β)) (name k : Str)
    (v : β) (h : k ∈ l.map Prod.fst) : k ∈ (objSet l name v).map Prod.fst := by
  unfold objSet
  split
  · rw [List.map_map]
    obtain ⟨p, hp, hk⟩ := List.mem_map.mp h
    apply List.mem_map.mpr
    refine ⟨p, hp, ?_⟩
    by_cases hpn : (p.1 == name) = true
    · have : p.1 = name := by simpa using hpn
      simp only [Function.comp, hpn, if_true]
      rw [← hk, this]
    · simp only [Function.comp, hpn, if_false]
      exact hk
  · rw [List.map_append]
    exact List.mem_append.mpr (Or.inl h)

lemma name_mem_keys_objSet {β : Type} (l : List (Str × β)) (name : Str)
    (v : β) : name ∈ (objSet l name v).map Prod.fst := by
  unfold objSet
  by_cases hs : (objGet l name).isSome = true
  · rw [if_pos hs]
    rw [List.map_map]
    unfold objGet at hs
    induction l with
    | nil => simp at hs
    | cons a t ih =>
      by_cases ha : (a.1 == name) = true
      · apply List.mem_map.mpr
        refine ⟨a, List.mem_cons_self a t, ?_⟩
        simp only [Function.comp, ha, if_pos]
      · rw [@List.find?_cons_of_neg _ (fun p => p.1 == name) a t ha] at hs
        rw [List.map_cons]
        exact List.mem_cons_of_mem _ (ih hs)
  · rw [if_neg hs]
    rw [List.map_append]
    exact List.mem_append.mpr (Or.inr (by simp))

/-! Path disjointness facts for the fixed project directory. -/

lemma append_cons_ne (pre : Str) {a b : Char} (t u : Str) (hab : a ≠ b) :
    pre ++ a :: t ≠ pre ++ b :: u := by
  intro h
  have h2 := List.append_cancel_left h
  injection h2 with h3 _
  exact hab h3

lemma tmp_write_ne_manifest (X rel : Str) :
    pjoin (pjoin (str "/tmp") X) rel ≠ manifestPathOf projDir := by
  have h : pjoin (pjoin (str "/tmp") X) rel =
      ['/'] ++ 't' :: ('m' :: 'p' :: '/' :: (X ++ '/' :: rel)) := rfl
  have h2 : manifestPathOf projDir =
      ['/'] ++ 'p' :: str "roj/.claude/local-skills.json" := rfl
  rw [h, h2]
  exact append_cons_ne ['/'] _ _ (by decide)

lemma tmp_write_ne_state (X rel : Str) :
    pjoin (pjoin (str "/tmp") X) rel ≠ statePathOf projDir := by
  have h : pjoin (pjoin (str "/tmp") X) rel =
      ['/'] ++ 't' :: ('m' :: 'p' :: '/' :: (X ++ '/' :: rel)) := rfl
  have h2 : statePathOf projDir =
      ['/'] ++ 'p' :: str "roj/.claude/local-skills-state.json" := rfl
  rw [h, h2]
  exact append_cons_ne ['/'] _ _ (by decide)

lemma atOrUnder_tmp_manifest (X : Str) :
    atOrUnder (pjoin (str "/tmp") X) (manifestPathOf projDir) = false := by
  show atOrUnder ('/' :: 't' :: 'm' :: 'p' :: '/' :: X)
    ("/proj/.claude/local-skills.json".data) = false
  simp [atOrUnder, underDir, BEq.beq, List.beq, List.isPrefixOf]

lemma atOrUnder_tmp_state (X : Str) :
    atOrUnder (pjoin (str "/tmp") X) (statePathOf projDir) = false := by
  show atOrUnder ('/' :: 't' :: 'm' :: 'p' :: '/' :: X)
    ("/proj/.claude/local-skills-state.json".data) = false
  simp [atOrUnder, underDir, BEq.beq, List.beq, List.isPrefixOf]

lemma dest_write_ne_manifest (name s : Str) :
    pjoin (pjoin projDir (str ".claude")) (pjoin (str "skills") name) ++ s ≠
      manifestPathOf projDir := by
  have h : pjoin (pjoin projDir (str ".claude")) (pjoin (str "skills") name) ++ s =
      str "/proj/.claude/" ++
        's' :: ('k' :: 'i' :: 'l' :: 'l' :: 's' :: '/' :: (name ++ s)) := rfl
  have h2 : manifestPathOf projDir =
      str "/proj/.claude/" ++ 'l' :: str "ocal-skills.json" := rfl
  rw [h, h2]
  exact append_cons_ne (str "/proj/.claude/") _ _ (by decide)

lemma dest_write_ne_state (name s : Str) :
    pjoin (pjoin projDir (str ".claude")) (pjoin (str "skills") name) ++ s ≠
      statePathOf projDir := by
  have h : pjoin (pjoin projDir (str ".claude")) (pjoin (str "skills") name) ++ s =
      str "/proj/.claude/" ++
        's' :: ('k' :: 'i' :: 'l' :: 'l' :: 's' :: '/' :: (name ++ s)) := rfl
  have h2 : statePathOf projDir =
      str "/proj/.claude/" ++ 'l' :: str "ocal-skills-state.json" := rfl
  rw [h, h2]
  exact append_cons_ne (str "/proj/.claude/") _ _ (by decide)

lemma atOrUnder_dest_manifest (name : Str) :
    atOrUnder (pjoin (pjoin projDir (str ".claude"))
      (pjoin (str "skills") name)) (manifestPathOf projDir) = false := by
  show atOrUnder ("/proj/.claude/skills/".data ++ name)
    ("/proj/.claude/local-skills.json".data) = false
  simp [atOrUnder, underDir, BEq.beq, List.beq, List.isPrefixOf]

lemma atOrUnder_dest_state (name : Str) :
    atOrUnder (pjoin (pjoin projDir (str ".claude"))
      (pjoin (str "skills") name)) (statePathOf projDir) = false := by
  show atOrUnder ("/proj/.claude/skills/".data ++ name)
    ("/proj/.claude/local-skills-state.json".data) = false
  simp [atOrUnder, underDir, BEq.beq, List.beq, List.isPrefixOf]

/-! Store-node preservation of the primitive operations. -/

lemma nodesEq_refl (fs : Fs) : NodesEq fs fs := ⟨rfl, rfl⟩

lemma nodesEq_trans {a b c : Fs} (h1 : NodesEq a b) (h2 : NodesEq b c) :
    NodesEq a c := ⟨h1.1.trans h2.1, h1.2.trans h2.2⟩

lemma objGet_clone_foldl (target k : Str) (h : ∀ rel, pjoin target rel ≠ k) :
    ∀ (tree : List (Str × FData)) (init : List (Str × FileNode)),
    objGet (tree.foldl
      (fun acc q => objSet acc (pjoin target q.1) (.readable q.2)) init) k =
      objGet init k
  | [], _ => rfl
  | q :: rest, init => by
    rw [List.foldl_cons]
    rw [objGet_clone_foldl target k h rest
      (objSet init (pjoin target q.1) (.readable q.2))]
    exact objGet_objSet_ne init (pjoin target q.1) k (.readable q.2) (h q.1)

lemma objGet_cp_foldl (src dest k : Str) (h : ∀ s, dest ++ s ≠ k) :
    ∀ (entries : List (Str × FileNode)) (init : List (Str × FileNode)),
    objGet (entries.foldl
      (fun acc q => objSet acc (dest ++ q.1.drop src.length) q.2) init) k =
      objGet init k
  | [], _ => rfl
  | q :: rest, init => by
    rw [List.foldl_cons]
    rw [objGet_cp_foldl src dest k h rest
      (objSet init (dest ++ q.1.drop src.length) q.2)]
    exact objGet_objSet_ne init (dest ++ q.1.drop src.length) k q.2
      (h (q.1.drop src.length))

lemma nodes_dRm_tmp (X : Str) (fs : Fs) :
    NodesEq (dRm (pjoin (str "/tmp") X) fs).2 fs :=
  ⟨objGet_filter_keep _ _ (atOrUnder_tmp_manifest X) fs.files,
    objGet_filter_keep _ _ (atOrUnder_tmp_state X) fs.files⟩

lemma nodes_dRm_dest (name : Str) (fs : Fs) :
    NodesEq (dRm (pjoin (pjoin projDir (str ".claude"))
      (pjoin (str "skills") name)) fs).2 fs :=
  ⟨objGet_filter_keep _ _ (atOrUnder_dest_manifest name) fs.files,
    objGet_filter_keep _ _ (atOrUnder_dest_state name) fs.files⟩

lemma nodes_clone_tmp (env : GitEnv) (url X : Str) (ref : Option Str) (fs : Fs) :
    NodesEq (cloneRepo env url (pjoin (str "/tmp") X) ref fs).2 fs := by
  unfold cloneRepo
  cases envLookup env url ref with
  | none => exact nodesEq_refl fs
  | some snap =>
    exact ⟨objGet_clone_foldl _ _ (fun rel => tmp_write_ne_manifest X rel) snap.tree fs.files,
      objGet_clone_foldl _ _ (fun rel => tmp_write_ne_state X rel) snap.tree fs.files⟩

lemma nodes_cp_dest (src name : Str) (fs : Fs) :
    NodesEq (dCp src (pjoin (pjoin projDir (str ".claude"))
      (pjoin (str "skills") name)) fs).2 fs := by
  unfold dCp
  dsimp only
  by_cases hc : fs.files.filter (fun q => underDir src q.1) = []
  · rw [if_pos hc]
    exact nodesEq_refl fs
  · rw [if_neg hc]
    exact ⟨objGet_cp_foldl src _ _ (fun s => dest_write_ne_manifest name s) _ fs.files,
      objGet_cp_foldl src _ _ (fun s => dest_write_ne_state name s) _ fs.files⟩

lemma manifest_ne_state_path : manifestPathOf projDir ≠ statePathOf projDir := by
  decide

lemma nodes_writeManifest (m : Manifest) (fs : Fs) :
    manifestNode (writeManifest (pjoin (pjoin projDir (str ".claude"))
      (str "local-skills.json")) m fs).2 = some (.readable (.jManifest m)) ∧
    stateNode (writeManifest (pjoin (pjoin projDir (str ".claude"))
      (str "local-skills.json")) m fs).2 = stateNode fs := by
  unfold writeManifest dWriteFile manifestNode stateNode
  constructor
  · exact objGet_objSet_self fs.files (manifestPathOf projDir) _
  · exact objGet_objSet_ne fs.files (manifestPathOf projDir) _ _
      manifest_ne_state_path

lemma nodes_writeState (st : StateFile) (fs : Fs) :
    stateNode (writeState (pjoin (pjoin projDir (str ".claude"))
      (str "local-skills-state.json")) st fs).2 = some (.readable (.jState st)) ∧
    manifestNode (writeState (pjoin (pjoin projDir (str ".claude"))
      (str "local-skills-state.json")) st fs).2 = manifestNode fs := by
  unfold writeState dWriteFile manifestNode stateNode
  constructor
  · exact objGet_objSet_self fs.files (statePathOf projDir) _
  · exact objGet_objSet_ne fs.files (statePathOf projDir) _ _
      (fun h => manifest_ne_state_path h.symm)

/-! Reader operations do not change the world. -/

lemma readManifest_snd (p : Str) (fs : Fs) : (readManifest p fs).2 = fs := by
  unfold readManifest M.orElseFn M.bind M.ok M.fail dReadFile
  dsimp only
  cases objGet fs.files p with
  | none => rfl
  | some node =>
    cases node with
    | denied => rfl
    | readable d => cases d <;> rfl

lemma readState_snd (p : Str) (fs : Fs) : (readState p fs).2 = fs := by
  unfold readState M.orElseFn M.bind M.ok M.fail dReadFile
  dsimp only
  cases objGet fs.files p with
  | none => rfl
  | some node =>
    cases node with
    | denied => rfl
    | readable d => cases d <;> rfl

lemma readMarketplace_snd (p : Str) (fs : Fs) : (readMarketplace p fs).2 = fs := by
  unfold readMarketplace M.bind M.mapErr M.ok M.fail dReadFile
  dsimp only
  cases objGet fs.files (pjoin p (str ".claude-plugin/marketplace.json")) with
  | none => rfl
  | some node =>
    cases node with
    | denied => rfl
    | readable d => cases d <;> rfl

lemma getHeadSha_snd (dir : Str) (fs : Fs) : (getHeadSha dir fs).2 = fs := by
  unfold getHeadSha
  cases objGet fs.shas dir <;> rfl

lemma dExists_snd (p : Str) (fs : Fs) : (dExists p fs).2 = fs := rfl

lemma dReaddir_snd (dir : Str) (fs : Fs) : (dReaddir dir fs).2 = fs := by
  unfold dReaddir
  dsimp only
  split <;> rfl

lemma listSkills_snd (p : Str) (fs : Fs) : (listSkills p fs).2 = fs := by
  unfold listSkills M.mapErr
  cases h : dReaddir (pjoin p (str "skills")) fs with
  | mk r fs1 =>
    have : fs1 = fs := by
      have h2 := dReaddir_snd (pjoin p (str "skills")) fs
      rw [h] at h2
      exact h2
    cases r <;> simpa using this

lemma modCheckUpdate_snd (force : Bool) (sp cd n : Str) (fs : Fs) :
    (modCheckUpdate force sp cd n fs).2 = fs := by
  unfold modCheckUpdate
  by_cases hf : force = true
  · rw [if_pos hf]
    rfl
  · rw [if_neg hf]
    unfold M.bind
    cases h1 : readState sp fs with
    | mk r1 fs1 =>
      have hfs1 : fs1 = fs := by
        have h2 := readState_snd sp fs
        rw [h1] at h2
        exact h2
      rw [hfs1]
      cases r1 with
      | error e => rfl
      | ok st =>
        dsimp only
        cases objGet st.skills n with
        | none => rfl
        | some se =>
          dsimp only
          cases h2 : computeContentHash (pjoin cd (pjoin (str "skills") n)) fs with
          | mk r2 fs2 =>
            have hfs2 : fs2 = fs := by
              have h3 := computeContentHash_snd (pjoin cd (pjoin (str "skills") n)) fs
              rw [h2] at h3
              exact h3
            rw [hfs2]
            cases r2 with
            | error e => rfl
            | ok live =>
              dsimp only
              split <;> rfl

/-! Invariant preservation through the command chains. -/

/-- `m` preserves the store-subset invariant on every run. -/
def PreservesInv {α : Type} (m : M α) : Prop :=
  ∀ fs, StoreInv fs → StoreInv (m fs).2

lemma preserves_of_snd {α : Type} {m : M α} (h : ∀ fs, (m fs).2 = fs) :
    PreservesInv m := fun fs hinv => by
  rw [h fs]
  exact hinv

lemma preserves_of_nodes {α : Type} {m : M α}
    (h : ∀ fs, NodesEq (m fs).2 fs) : PreservesInv m :=
  fun fs hinv => storeInv_of_nodesEq (h fs) hinv

lemma preserves_bind {α β : Type} {m : M α} {f : α → M β}
    (h1 : PreservesInv m) (h2 : ∀ a, PreservesInv (f a)) :
    PreservesInv (M.bind m f) := by
  intro fs hinv
  unfold M.bind
  cases hm : m fs with
  | mk r fs1 =>
    have hfs1 : StoreInv fs1 := by
      have h3 := h1 fs hinv
      rw [hm] at h3
      exact h3
    cases r with
    | ok a => exact h2 a fs1 hfs1
    | error e => exact hfs1

lemma readManifest_ok_node {p : Str} {fs : Fs} {m : Manifest} {fs' : Fs}
    (h : readManifest p fs = (.ok m, fs')) :
    objGet fs.files p = some (.readable (.jManifest m)) ∨
    ((objGet fs.files p = none ∨ objGet fs.files p = some .denied) ∧
      m = ⟨[]⟩) := by
  unfold readManifest M.orElseFn M.bind M.ok M.fail dReadFile at h
  dsimp only at h
  cases hg : objGet fs.files p with
  | none =>
    rw [hg] at h
    refine Or.inr ⟨Or.inl rfl, ?_⟩
    injection h with h1 _
    injection h1 with h2
    rw [← h2]
  | some node =>
    cases node with
    | denied =>
      rw [hg] at h
      refine Or.inr ⟨Or.inr rfl, ?_⟩
      injection h with h1 _
      injection h1 with h2
      rw [← h2]
    | readable d =>
      rw [hg] at h
      cases d with
      | jManifest m' =>
        left
        injection h with h1 _
        injection h1 with h2
        rw [← h2]
      | text s => cases h
      | jState st => cases h
      | jMarket mc => cases h

lemma readState_ok_node {p : Str} {fs : Fs} {st : StateFile} {fs' : Fs}
    (h : readState p fs = (.ok st, fs')) :
    objGet fs.files p = some (.readable (.jState st)) ∨
    ((objGet fs.files p = none ∨ objGet fs.files p = some .denied) ∧
      st = ⟨[]⟩) := by
  unfold readState M.orElseFn M.bind M.ok M.fail dReadFile at h
  dsimp only at h
  cases hg : objGet fs.files p with
  | none =>
    rw [hg] at h
    refine Or.inr ⟨Or.inl rfl, ?_⟩
    injection h with h1 _
    injection h1 with h2
    rw [← h2]
  | some node =>
    cases node with
    | denied =>
      rw [hg] at h
      refine Or.inr ⟨Or.inr rfl, ?_⟩
      injection h with h1 _
      injection h1 with h2
      rw [← h2]
    | readable d =>
      rw [hg] at h
      cases d with
      | jState st' =>
        left
        injection h with h1 _
        injection h1 with h2
        rw [← h2]
      | text s => cases h
      | jManifest m => cases h
      | jMarket mc => cases h

lemma addSkill_ok {manifest : Manifest} {skillName : Str}
    {entry : ManifestSkillEntry} {updated : Manifest}
    (h : addSkillToManifest manifest skillName entry = .ok updated) :
    updated = ⟨objSet manifest.skills skillName entry⟩ := by
  unfold addSkillToManifest at h
  split at h
  · cases h
  · injection h with h1
    exact h1.symm

lemma installSingle_preserves (spec : ParsedSpecifier)
    (pluginDir sha skillName : Str) :
    PreservesInv (installSingleSkill spec pluginDir sha
      (pjoin projDir (str ".claude"))
      (pjoin (pjoin projDir (str ".claude")) (str "local-skills.json"))
      skillName) := by
  intro fs hinv
  unfold installSingleSkill M.bind dExists
  dsimp only
  cases hex : fs.files.any (fun q =>
      atOrUnder (pjoin pluginDir (pjoin (str "skills") skillName)) q.1) with
  | false =>
    rw [if_neg (by simp)]
    exact hinv
  | true =>
    rw [if_pos rfl]
    dsimp only [M.ok]
    cases h1 : readManifest (pjoin (pjoin projDir (str ".claude"))
        (str "local-skills.json")) fs with
    | mk r1 fs1 =>
      have hfs1 : fs1 = fs := by
        have h2 := readManifest_snd (pjoin (pjoin projDir (str ".claude"))
          (str "local-skills.json")) fs
        rw [h1] at h2
        exact h2
      rw [hfs1]
      cases r1 with
      | error e => exact hinv
      | ok manifest =>
        dsimp only
        cases ha : addSkillToManifest manifest skillName
            ⟨sourceLabel spec, spec.ref.getD (str "HEAD"), sha⟩ with
        | error e => exact hinv
        | ok updated =>
          dsimp only [dMkdir, M.ok]
          rw [hfs1] at h1
          have hnode := readManifest_ok_node h1
          have hupd := addSkill_ok ha
          cases h2 : dCp (pjoin pluginDir (pjoin (str "skills") skillName))
              (pjoin (pjoin projDir (str ".claude"))
                (pjoin (str "skills") skillName)) fs with
          | mk r2 fs2 =>
            have hn2 : NodesEq fs2 fs := by
              have h3 := nodes_cp_dest
                (pjoin pluginDir (pjoin (str "skills") skillName)) skillName fs
              rw [h2] at h3
              exact h3
            cases r2 with
            | error e => exact storeInv_of_nodesEq hn2 hinv
            | ok u =>
              dsimp only
              have hw := nodes_writeManifest updated fs2
              intro k hk
              unfold stateKeys at hk
              unfold manifestKeys
              rw [show stateNode (writeManifest
                  (pjoin (pjoin projDir (str ".claude"))
                    (str "local-skills.json")) updated fs2).2 =
                  stateNode fs from hw.2.trans hn2.2] at hk
              rw [show manifestNode (writeManifest
                  (pjoin (pjoin projDir (str ".claude"))
                    (str "local-skills.json")) updated fs2).2 =
                  some (.readable (.jManifest updated)) from hw.1]
              have hkm : k ∈ manifestKeys fs := hinv k hk
              unfold manifestKeys at hkm
              rcases hnode with hnode | ⟨hnode, hempty⟩
              · have hnode' : manifestNode fs =
                    some (.readable (.jManifest manifest)) := hnode
                rw [hnode'] at hkm
                unfold manifestKeysOf at hkm ⊢
                rw [hupd]
                exact keys_objSet_superset manifest.skills skillName k _ hkm
              · exfalso
                rcases hnode with hnode | hnode
                · have hnode' : manifestNode fs = none := hnode
                  rw [hnode'] at hkm
                  simp [manifestKeysOf] at hkm
                · have hnode' : manifestNode fs = some .denied := hnode
                  rw [hnode'] at hkm
                  simp [manifestKeysOf] at hkm

lemma objGet_mem_keys {β : Type} {l : List (Str × β)} {k : Str} {v : β}
    (h : objGet l k = some v) : k ∈ l.map Prod.fst := by
  unfold objGet at h
  cases hf : l.find? (fun p => p.1 == k) with
  | none => rw [hf] at h; cases h
  | some q =>
    have hmem := List.mem_of_find?_eq_some hf
    have hpq := List.find?_some hf
    have hq1 : q.1 = k := by simpa using hpq
    rw [← hq1]
    exact List.mem_map_of_mem Prod.fst hmem

lemma storeInv_write_both (state : StateFile) (manifest : Manifest)
    (skillName : Str) (se : StateFileEntry) (me : ManifestSkillEntry)
    (fsA : Fs)
    (hsub : ∀ k ∈ state.skills.map Prod.fst,
      k ∈ manifest.skills.map Prod.fst) :
    StoreInv (writeManifest
      (pjoin (pjoin projDir (str ".claude")) (str "local-skills.json"))
      ⟨objSet manifest.skills skillName me⟩
      (writeState
        (pjoin (pjoin projDir (str ".claude")) (str "local-skills-state.json"))
        ⟨objSet state.skills skillName se⟩ fsA).2).2 := by
  intro k hk
  unfold stateKeys at hk
  rw [(nodes_writeManifest _ _).2, (nodes_writeState _ fsA).1] at hk
  unfold manifestKeys
  rw [(nodes_writeManifest _ _).1]
  have hk' : k ∈ (objSet state.skills skillName se).map Prod.fst := hk
  rcases mem_keys_objSet _ _ _ _ hk' with h | h
  · exact keys_objSet_superset _ _ _ _ (hsub k h)
  · rw [h]
    exact name_mem_keys_objSet _ _ _

lemma installAll_preserves (spec : ParsedSpecifier) (pluginDir sha : Str) :
    PreservesInv (installAllSkills spec pluginDir sha
      (pjoin projDir (str ".claude"))
      (pjoin (pjoin projDir (str ".claude")) (str "local-skills.json"))) := by
  unfold installAllSkills
  refine preserves_bind (preserves_of_snd (listSkills_snd pluginDir)) ?_
  intro skills
  have hfold : ∀ (l : List Str) (chain : M Unit), PreservesInv chain →
      PreservesInv (l.foldl (fun chain skillName =>
        M.bind chain fun _ => installSingleSkill spec pluginDir sha
          (pjoin projDir (str ".claude"))
          (pjoin (pjoin projDir (str ".claude")) (str "local-skills.json"))
          skillName) chain) := by
    intro l
    induction l with
    | nil => intro chain h; exact h
    | cons sk t ih =>
      intro chain h
      exact ih _ (preserves_bind h (fun _ =>
        installSingle_preserves spec pluginDir sha sk))
  exact hfold skills (M.ok ()) (preserves_of_snd (fun fs => rfl))

lemma installSkills_preserves (spec : ParsedSpecifier) (pluginDir sha : Str) :
    PreservesInv (installSkills spec pluginDir sha
      (pjoin projDir (str ".claude"))
      (pjoin (pjoin projDir (str ".claude")) (str "local-skills.json"))) := by
  unfold installSkills
  cases spec.skill with
  | none => exact preserves_of_snd (fun fs => rfl)
  | some sk =>
    dsimp only
    by_cases hsk : sk = str "*"
    · rw [if_pos hsk]
      exact installAll_preserves spec pluginDir sha
    · rw [if_neg hsk]
      exact installSingle_preserves spec pluginDir sha sk

lemma add_preserves (env : GitEnv) (spec : ParsedSpecifier) :
    PreservesInv (add env projDir spec) := by
  unfold add dTmp
  dsimp only
  refine preserves_bind ?_ (fun _ => preserves_of_nodes
    (nodes_dRm_tmp (str "local-skills-clone-" ++ natStr env.now)))
  refine preserves_bind (preserves_of_nodes
    (nodes_clone_tmp env (marketplaceUrl spec)
      (str "local-skills-clone-" ++ natStr env.now) spec.ref)) ?_
  intro u1
  refine preserves_bind (preserves_of_snd
    (getHeadSha_snd (pjoin (str "/tmp")
      (str "local-skills-clone-" ++ natStr env.now)))) ?_
  intro sha
  refine preserves_bind (preserves_of_snd
    (readMarketplace_snd (pjoin (str "/tmp")
      (str "local-skills-clone-" ++ natStr env.now)))) ?_
  intro marketplace
  cases findPlugin marketplace spec.plugin with
  | error e => exact preserves_of_snd (fun fs => rfl)
  | ok plugin =>
    dsimp only
    cases hp : plugin.source with
    | rel p =>
      rw [if_neg (by simp)]
      exact installSkills_preserves spec _ sha
    | githubRepo gr =>
      rw [if_pos rfl]
      exact preserves_bind (preserves_of_nodes (fun fs =>
          nodes_clone_tmp env _ (str "local-skills-plugin-" ++ natStr env.now)
            none fs))
        (fun _ => installSkills_preserves spec _ sha)
    | urlSrc u =>
      rw [if_pos rfl]
      exact preserves_bind (preserves_of_nodes (fun fs =>
          nodes_clone_tmp env _ (str "local-skills-plugin-" ++ natStr env.now)
            none fs))
        (fun _ => installSkills_preserves spec _ sha)

lemma update_preserves (env : GitEnv) (skillName : Str) (force : Bool) :
    PreservesInv (update env projDir skillName force) := by
  intro fs hinv
  unfold update M.bind M.ok M.fail dTmp
  try dsimp only
  split
  · -- readManifest succeeded
    rename_i manifest fs1 heq1
    have hfs1 : fs1 = fs := by
      have h := congrArg Prod.snd heq1
      dsimp only at h
      rw [← h]
      exact readManifest_snd _ fs
    rw [hfs1]
    cases hentry : objGet manifest.skills skillName with
    | none => exact hinv
    | some entry =>
      try dsimp only
      by_cases hsha : isShaRef entry.ref = true
      · rw [if_pos hsha]
        exact hinv
      · rw [if_neg hsha]
        cases hat : idxOf entry.source '@' with
        | none => exact hinv
        | some atIdx =>
          try dsimp only
          have hnode : manifestNode fs =
              some (.readable (.jManifest manifest)) := by
            rcases readManifest_ok_node heq1 with h | ⟨h, hemp⟩
            · exact h
            · rw [hemp] at hentry
              cases hentry
          have hkeys : ∀ k ∈ stateKeys fs,
              k ∈ manifest.skills.map Prod.fst := by
            intro k hk
            have h := hinv k hk
            unfold manifestKeys at h
            rw [hnode] at h
            exact h
          split
          · -- modCheckUpdate passed
            rename_i u2 fs2 heq2
            have hfs2 : fs2 = fs := by
              have h := congrArg Prod.snd heq2
              dsimp only at h
              rw [← h]
              exact modCheckUpdate_snd force _ _ skillName fs
            rw [hfs2]
            split
            · -- cloneRepo succeeded
              rename_i u3 fs3 heq3
              have hn3 : NodesEq fs3 fs := by
                have h := congrArg Prod.snd heq3
                dsimp only at h
                rw [← h]
                exact nodes_clone_tmp env _
                  (str "local-skills-update-" ++ natStr env.now) _ fs
              try dsimp only
              split
              · -- getHeadSha succeeded
                rename_i newSha fs4 heq4
                have hfs4 : fs4 = fs3 := by
                  have h := congrArg Prod.snd heq4
                  dsimp only at h
                  rw [← h]
                  exact getHeadSha_snd _ fs3
                rw [hfs4]
                try dsimp only
                by_cases hup : newSha = entry.sha
                · rw [if_pos hup]
                  show StoreInv (dRm (pjoin (str "/tmp")
                    (str "local-skills-update-" ++ natStr env.now)) fs3).2
                  exact storeInv_of_nodesEq
                    (nodes_dRm_tmp (str "local-skills-update-" ++ natStr env.now)
                      fs3)
                    (storeInv_of_nodesEq hn3 hinv)
                · rw [if_neg hup]
                  split
                  · -- readMarketplace succeeded
                    rename_i marketplace fs5 heq5
                    have hfs5 : fs5 = fs3 := by
                      have h := congrArg Prod.snd heq5
                      dsimp only at h
                      rw [← h]
                      exact readMarketplace_snd _ fs3
                    rw [hfs5]
                    try dsimp only
                    cases hfp : findPlugin marketplace
                        (List.take atIdx entry.source) with
                    | error e => exact storeInv_of_nodesEq hn3 hinv
                    | ok plugin =>
                      try dsimp only
                      split
                      · -- dRm of the installed skill directory
                        rename_i u6 fs6 heq6
                        have hn6 : NodesEq fs6 fs := by
                          have h := congrArg Prod.snd heq6
                          dsimp only at h
                          rw [← h]
                          exact nodesEq_trans (nodes_dRm_dest skillName fs3) hn3
                        try dsimp only
                        split
                        · -- dCp into the skill directory
                          rename_i u7 fs7 heq7
                          have hn7 : NodesEq fs7 fs := by
                            have h := congrArg Prod.snd heq7
                            dsimp only at h
                            rw [← h]
                            exact nodesEq_trans (nodes_cp_dest _ skillName fs6)
                              hn6
                          try dsimp only
                          split
                          · -- computeContentHash succeeded
                            rename_i contentHash fs8 heq8
                            have hfs8 : fs8 = fs7 := by
                              have h := congrArg Prod.snd heq8
                              dsimp only at h
                              rw [← h]
                              exact computeContentHash_snd _ fs7
                            rw [hfs8]
                            try dsimp only
                            split
                            · -- readState succeeded
                              rename_i state fs9 heq9
                              have hfs9 : fs9 = fs7 := by
                                have h := congrArg Prod.snd heq9
                                dsimp only at h
                                rw [← h]
                                exact readState_snd _ fs7
                              rw [hfs9]
                              try dsimp only
                              have hsub : ∀ k ∈ state.skills.map Prod.fst,
                                  k ∈ manifest.skills.map Prod.fst := by
                                rcases readState_ok_node heq9 with h | ⟨h, hemp⟩
                                · intro k hk
                                  apply hkeys
                                  unfold stateKeys
                                  rw [← hn7.2]
                                  have h' : stateNode fs7 =
                                      some (.readable (.jState state)) := h
                                  rw [h']
                                  exact hk
                                · intro k hk
                                  rw [hemp] at hk
                                  simp at hk
                              split
                              · -- writeState succeeded
                                rename_i u10 fs10 heq10
                                try dsimp only
                                split
                                · -- writeManifest succeeded
                                  rename_i u11 fs11 heq11
                                  try dsimp only
                                  have hInv11 : StoreInv fs11 := by
                                    have ha := congrArg Prod.snd heq11
                                    dsimp only at ha
                                    rw [← ha]
                                    have hb := congrArg Prod.snd heq10
                                    dsimp only at hb
                                    rw [← hb]
                                    exact storeInv_write_both state manifest
                                      skillName ⟨contentHash⟩
                                      ⟨entry.source, entry.ref, newSha⟩ fs7 hsub
                                  show StoreInv (dRm (pjoin (str "/tmp")
                                    (str "local-skills-update-" ++
                                      natStr env.now)) fs11).2
                                  exact storeInv_of_nodesEq
                                    (nodes_dRm_tmp _ fs11) hInv11
                                · -- writeManifest cannot fail
                                  rename_i e fs11 heq11
                                  exfalso
                                  have h := congrArg Prod.fst heq11
                                  simp [writeManifest, dWriteFile] at h
                              · -- writeState cannot fail
                                rename_i e fs10 heq10
                                exfalso
                                have h := congrArg Prod.fst heq10
                                simp [writeState, dWriteFile] at h
                            · -- readState failed
                              rename_i e fs9 heq9
                              try dsimp only
                              have h := congrArg Prod.snd heq9
                              dsimp only at h
                              rw [← h, readState_snd]
                              exact storeInv_of_nodesEq hn7 hinv
                          · -- computeContentHash failed
                            rename_i e fs8 heq8
                            try dsimp only
                            have h := congrArg Prod.snd heq8
                            dsimp only at h
                            rw [← h, computeContentHash_snd]
                            exact storeInv_of_nodesEq hn7 hinv
                        · -- dCp failed
                          rename_i e fs7 heq7
                          try dsimp only
                          have h := congrArg Prod.snd heq7
                          dsimp only at h
                          rw [← h]
                          exact storeInv_of_nodesEq
                            (nodesEq_trans (nodes_cp_dest _ skillName fs6) hn6)
                            hinv
                      · -- dRm of the skill directory cannot fail, but the
                        -- error arm still leaves the stores intact
                        rename_i e fs6 heq6
                        try dsimp only
                        have h := congrArg Prod.snd heq6
                        dsimp only at h
                        rw [← h]
                        exact storeInv_of_nodesEq
                          (nodesEq_trans (nodes_dRm_dest skillName fs3) hn3)
                          hinv
                  · -- readMarketplace failed
                    rename_i e fs5 heq5
                    try dsimp only
                    have h := congrArg Prod.snd heq5
                    dsimp only at h
                    rw [← h, readMarketplace_snd]
                    exact storeInv_of_nodesEq hn3 hinv
              · -- getHeadSha failed
                rename_i e fs4 heq4
                try dsimp only
                have h := congrArg Prod.snd heq4
                dsimp only at h
                rw [← h, getHeadSha_snd]
                exact storeInv_of_nodesEq hn3 hinv
            · -- cloneRepo failed
              rename_i e fs3 heq3
              try dsimp only
              have h := congrArg Prod.snd heq3
              dsimp only at h
              rw [← h]
              exact storeInv_of_nodesEq
                (nodes_clone_tmp env _
                  (str "local-skills-update-" ++ natStr env.now) _ fs)
                hinv
          · -- modCheckUpdate failed
            rename_i e fs2 heq2
            try dsimp only
            have h := congrArg Prod.snd heq2
            dsimp only at h
            rw [← h, modCheckUpdate_snd]
            exact hinv
  · -- readManifest failed
    rename_i e fs1 heq1
    try dsimp only
    have h := congrArg Prod.snd heq1
    dsimp only at h
    rw [← h, readManifest_snd]
    exact hinv

/-- Remote for the C5 update step: same marketplace, new head, new content. -/
def envC5 : GitEnv :=
  ⟨[((str "https://github.com/o/r.git", none),
     ⟨str "bbbbbbbbbbbbbbbbbbbbbbbbbbbbbbbbbbbbbbbb",
      [(str ".claude-plugin/marketplace.json",
        .jMarket ⟨[⟨str "superpowers", .rel (str "p")⟩], none⟩),
       (str "p/skills/tdd/SKILL.md", .text (str "# TDD v2"))]⟩)], 1⟩

/-- World after an add (against `envC4`), an update (against `envC5`, which
records the fingerprint in the state store) and a remove of the `tdd`
skill. -/
def wC5 : Fs :=
  (remove projDir (str "tdd")
    (update envC5 projDir (str "tdd") false
      (add envC4 projDir specC4 ⟨[], []⟩).2).2).2

/-- C5 (corrected): a world reachable by add, update, remove from the empty
stores holds an orphaned state entry — `tdd` keys the state store but not
the manifest store, because `remove` drops the manifest entry and the skill
directory without touching the state store. -/
theorem c5_counterexample :
    Reachable wC5 ∧
    str "tdd" ∈ stateKeys wC5 ∧ str "tdd" ∉ manifestKeys wC5 :=
  ⟨Reachable.removeStep (str "tdd")
      (Reachable.updateStep envC5 (str "tdd") false
        (Reachable.addStep envC4 specC4 Reachable.init)),
    by decide, by decide⟩

/-- C5 (amended).  Restricted to sequences of `add` and `update` starting
from the empty stores, every skill name keyed in the state store is keyed in
the manifest store: `add` only extends the manifest, and `update` writes the
state entry for a skill only after finding its manifest entry, which the
final manifest write keeps. -/
theorem c5_amended (fs : Fs) (h : ReachableAU fs) : StoreInv fs := by
  induction h with
  | init =>
    intro k hk
    simp [stateKeys, stateNode, objGet, stateKeysOf, List.find?] at hk
  | addStep env spec hprev ih => exact add_preserves env spec _ ih
  | updateStep env skillName force hprev ih =>
    exact update_preserves env skillName force _ ih

/-- Witness for C5: the amended invariant applied to a concrete
add-then-update world. -/
theorem c5_witness :
    StoreInv (update envC5 projDir (str "tdd") false
      (add envC4 projDir specC4 ⟨[], []⟩).2).2 :=
  c5_amended _
    (ReachableAU.updateStep envC5 (str "tdd") false
      (ReachableAU.addStep envC4 specC4 ReachableAU.init))

/-! ## Claim C9: GitHub source-label round trip

A successful parse with a GitHub-shorthand marketplace yields a plugin with
no `@` and a locator with no `:` and no `://`, so re-parsing
`plugin@owner/repo` splits at the same `@`, finds no colon segments, and
classifies the same `owner/repo` shorthand. -/

lemma idxOf_eq_none_iff (l : Str) (c : Char) : idxOf l c = none ↔ c ∉ l := by
  induction l with
  | nil => simp [idxOf]
  | cons a t ih =>
    by_cases hac : a = c
    · subst hac
      simp [idxOf]
    · simp [idxOf, hac, Option.map_eq_none', ih, Ne.symm hac]

lemma idxOf_take {l : Str} {c : Char} {n : Nat} (h : idxOf l c = some n) :
    c ∉ l.take n := by
  induction l generalizing n with
  | nil => simp [idxOf] at h
  | cons a t ih =>
    by_cases hac : a = c
    · rw [idxOf, if_pos hac] at h
      injection h with h
      rw [← h]
      simp
    · rw [idxOf, if_neg hac] at h
      cases hidx : idxOf t c with
      | none => rw [hidx] at h; cases h
      | some m =>
        rw [hidx] at h
        injection h with h
        rw [← h]
        simp [List.take_succ_cons, Ne.symm hac, ih hidx]

lemma idxOf_append_self {p : Str} (rest : Str) (c : Char) (h : c ∉ p) :
    idxOf (p ++ c :: rest) c = some p.length := by
  induction p with
  | nil => simp [idxOf]
  | cons a t ih =>
    have hac : ¬a = c := fun he => h (by rw [he]; exact List.mem_cons_self c t)
    rw [List.cons_append, idxOf, if_neg hac,
      ih (fun hm => h (List.mem_cons_of_mem a hm))]
    rfl

lemma subIdx_of_startsWith {l pat : Str} (h : pat.isPrefixOf l = true) :
    subIdx l pat = some 0 := by
  cases l with
  | nil => unfold subIdx; rw [if_pos h]
  | cons a t => unfold subIdx; rw [if_pos h]

lemma includes_cons {X pat : Str} (a : Char) (h : includes X pat = true) :
    includes (a :: X) pat = true := by
  unfold includes at h ⊢
  unfold subIdx
  split
  · rfl
  · cases hs : subIdx X pat with
    | none => rw [hs] at h; cases h
    | some m => rfl

lemma includes_false_subIdx {l pat : Str} (h : includes l pat = false) :
    subIdx l pat = none := by
  unfold includes at h
  cases hs : subIdx l pat with
  | none => rfl
  | some i => rw [hs] at h; cases h

lemma subIdx_take {l pat : Str} {i : Nat} (d : Nat)
    (h : subIdx l pat = some i) :
    includes (l.take (i + pat.length + d)) pat = true := by
  induction l generalizing i with
  | nil =>
    unfold subIdx at h
    split at h
    · rename_i hpre
      injection h with h
      rw [← h]
      unfold includes
      rw [subIdx_of_startsWith (by simpa using hpre)]
      rfl
    · cases h
  | cons a t ih =>
    unfold subIdx at h
    split at h
    · rename_i hpre
      injection h with h
      rw [← h]
      obtain ⟨tail, htail⟩ := (List.isPrefixOf_iff_prefix.mp hpre)
      rw [← htail, Nat.zero_add, List.take_append]
      unfold includes
      rw [subIdx_of_startsWith
        (List.isPrefixOf_iff_prefix.mpr (List.prefix_append _ _))]
      rfl
    · cases hs : subIdx t pat with
      | none => rw [hs] at h; cases h
      | some m =>
        rw [hs] at h
        injection h with h
        rw [← h, show m + 1 + pat.length + d = m + pat.length + d + 1 from
          by omega, List.take_succ_cons]
        exact includes_cons a (ih hs)

lemma split_mkt_none (right : Str) (hpi : subIdx right (str "://") = none)
    (hj : idxOf right ':' = none) :
    splitMarketplaceAndColons right = ⟨right, []⟩ := by
  unfold splitMarketplaceAndColons idxFrom
  simp only [hpi, List.drop_zero, hj, Option.map_none']

lemma split_mkt_some (right : Str) (hpi : subIdx right (str "://") = none)
    {jj : Nat} (hj : idxOf right ':' = some jj) :
    (splitMarketplaceAndColons right).marketplace = right.take jj := by
  unfold splitMarketplaceAndColons idxFrom
  simp only [hpi, List.drop_zero, hj, Option.map_some']
  split <;> rfl

lemma split_mkt_proto (right : Str) {i : Nat}
    (hpi : subIdx right (str "://") = some i) :
    (splitMarketplaceAndColons right).marketplace = right ∨
    ∃ d, (splitMarketplaceAndColons right).marketplace =
      right.take (i + 3 + d) := by
  unfold splitMarketplaceAndColons idxFrom
  cases hj : idxOf (right.drop (i + 3)) ':' with
  | none =>
    left
    simp only [hpi, hj, Option.map_none']
  | some jj =>
    right
    refine ⟨jj, ?_⟩
    simp only [hpi, hj, Option.map_some']
    rw [show jj + (i + 3) = i + 3 + jj from by omega]
    split <;> rfl

lemma split_mkt_no_colon (right : Str)
    (h : includes (splitMarketplaceAndColons right).marketplace
      (str "://") = false) :
    ':' ∉ (splitMarketplaceAndColons right).marketplace := by
  cases hpi : subIdx right (str "://") with
  | none =>
    cases hj : idxOf right ':' with
    | none =>
      rw [split_mkt_none right hpi hj]
      exact (idxOf_eq_none_iff right ':').mp hj
    | some jj =>
      rw [split_mkt_some right hpi hj]
      exact idxOf_take hj
  | some i =>
    exfalso
    rcases split_mkt_proto right hpi with hm | ⟨d, hm⟩
    · rw [hm] at h
      unfold includes at h
      rw [hpi] at h
      cases h
    · rw [hm] at h
      have ht := subIdx_take d hpi
      rw [show (str "://").length = 3 from rfl] at ht
      rw [ht] at h
      cases h

lemma intercalate_slash_cons (a b : Str) (t : List Str) :
    List.intercalate [ '/' ] (a :: b :: t) =
      a ++ [ '/' ] ++ List.intercalate [ '/' ] (b :: t) := by
  simp [List.intercalate]

lemma drop_append_cons (p m : Str) (c : Char) :
    (p ++ c :: m).drop (p.length + 1) = m := by
  induction p with
  | nil => rfl
  | cons a t ih => exact ih

/-- C9 (confirmed).  Any input that parses successfully with a
GitHub-shorthand marketplace re-parses from its reconstructed source label
`plugin@owner/repo` to the same plugin name and the same owner/repo
marketplace (with no ref and no skill). -/
theorem c9_github_label_roundtrip (input : Str) (s : ParsedSpecifier)
    (owner repo : Str)
    (hp : parseSpecifier input = .ok s)
    (hm : s.marketplace = .github owner repo) :
    parseSpecifier (sourceLabel s) =
      .ok ⟨s.plugin, .github owner repo, none, none⟩ := by
  unfold parseSpecifier at hp
  cases hat : idxOf input '@' with
  | none => rw [hat] at hp; cases hp
  | some atIndex =>
    rw [hat] at hp
    dsimp only at hp
    by_cases h0 : atIndex = 0
    · rw [if_pos h0] at hp; cases hp
    · rw [if_neg h0] at hp
      unfold parseRight at hp
      by_cases hr : input.drop (atIndex + 1) = []
      · rw [if_pos hr] at hp; cases hp
      · rw [if_neg hr] at hp
        dsimp only at hp
        set MKT := (splitMarketplaceAndColons
          (input.drop (atIndex + 1))).marketplace with hMKTdef
        cases hcls : classifyMarketplace MKT with
        | error e => rw [hcls] at hp; cases hp
        | ok mref =>
          rw [hcls] at hp
          dsimp only at hp
          have hs : s.plugin = input.take atIndex ∧ s.marketplace = mref := by
            split at hp
            · injection hp with h
              rw [← h]
              exact ⟨rfl, rfl⟩
            · split at hp
              · injection hp with h
                rw [← h]
                exact ⟨rfl, rfl⟩
              · split at hp
                · injection hp with h
                  rw [← h]
                  exact ⟨rfl, rfl⟩
                · injection hp with h
                  rw [← h]
                  exact ⟨rfl, rfl⟩
            · injection hp with h
              rw [← h]
              exact ⟨rfl, rfl⟩
            · cases hp
          obtain ⟨hplug, hmref⟩ := hs
          rw [hmref.symm.trans hm] at hcls
          have hclsU := hcls
          unfold classifyMarketplace at hclsU
          by_cases hurl :
              (includes MKT (str "://") || startsWithChar '/' MKT) = true
          · rw [if_pos hurl] at hclsU
            injection hclsU with h
            cases h
          · rw [if_neg hurl] at hclsU
            have hincl : includes MKT (str "://") = false :=
              (Bool.or_eq_false_iff.mp (Bool.eq_false_iff.mpr hurl)).1
            cases hsplit : MKT.splitOn '/' with
            | nil => rw [hsplit] at hclsU; cases hclsU
            | cons ow rest =>
              cases rest with
              | nil => rw [hsplit] at hclsU; cases hclsU
              | cons b t =>
                rw [hsplit] at hclsU
                injection hclsU with h
                injection h with h1 h2
                have hmkt : MKT = owner ++ '/' :: repo := by
                  have hi := List.intercalate_splitOn MKT '/'
                  rw [hsplit, intercalate_slash_cons, h1, h2] at hi
                  rw [← hi]
                  simp
                have hpat : '@' ∉ input.take atIndex := idxOf_take hat
                have hpne : input.take atIndex ≠ [] := by
                  intro hpe
                  rcases List.take_eq_nil_iff.mp hpe with h | h
                  · exact h0 h
                  · rw [h] at hat
                    cases hat
                have hMKTne : MKT ≠ [] := by
                  rw [hmkt]
                  simp
                have hsplitM : splitMarketplaceAndColons MKT = ⟨MKT, []⟩ :=
                  split_mkt_none MKT (includes_false_subIdx hincl)
                    ((idxOf_eq_none_iff _ _).mpr
                      (split_mkt_no_colon _ hincl))
                unfold sourceLabel
                rw [hm]
                dsimp only
                rw [hplug, ← hmkt]
                unfold parseSpecifier
                rw [idxOf_append_self MKT '@' hpat]
                dsimp only
                rw [if_neg (fun hl => hpne (List.length_eq_zero.mp hl)),
                  List.take_left, drop_append_cons]
                unfold parseRight
                rw [if_neg hMKTne]
                dsimp only
                rw [hsplitM]
                dsimp only
                rw [hcls]

/-- Witness for C9: the round trip at the concrete specifier
`superpowers@o/r:tdd`. -/
theorem c9_witness :
    parseSpecifier (str "superpowers@o/r:tdd") =
      .ok ⟨str "superpowers", .github (str "o") (str "r"),
        some (str "tdd"), none⟩ ∧
    parseSpecifier (sourceLabel ⟨str "superpowers",
      .github (str "o") (str "r"), some (str "tdd"), none⟩) =
      .ok ⟨str "superpowers", .github (str "o") (str "r"), none, none⟩ :=
  ⟨by decide,
    c9_github_label_roundtrip (str "superpowers@o/r:tdd")
      ⟨str "superpowers", .github (str "o") (str "r"), some (str "tdd"), none⟩
      (str "o") (str "r") (by decide) (by decide)⟩

end LocalSkills
